import Mathlib

/-!
# Verification of the stack-sniffer probing/aggregation engine

Shallow embedding of `src/stack-sniffer.py` (single-file Python program) and of the
parts of CPython 3.11's `urllib.parse` that the program calls into
(`urlparse`, `urljoin`, `geturl`).  Strings are modelled at the `List Char` level
(Python `str` is a sequence of code points); machine behaviour that the program
relies on (dict insertion order, set semantics, `rstrip`, case-insensitive header
lookup of `requests`) is modelled explicitly.

The HTML tokenizer (BeautifulSoup) is an external library capability: a response
body is modelled directly as its parsed stream of elements (tag plus attribute
list), and `soup.find_all(tag)` as filtering that stream by tag, which is the only
way the program consumes the parser.
-/

deriving instance DecidableEq for Except

/-! ## CPython 3.11 urllib.parse model (over List Char) -/

/-- ASCII letter test, CPython's `c.isascii() and c.isalpha()`. -/
def isAsciiAlpha (c : Char) : Bool :=
  (65 ≤ c.toNat && c.toNat ≤ 90) || (97 ≤ c.toNat && c.toNat ≤ 122)

/-- ASCII digit test. -/
def isAsciiDigit (c : Char) : Bool := 48 ≤ c.toNat && c.toNat ≤ 57

/-- Characters valid in scheme names: ASCII letters, digits and `+-.`
(CPython `scheme_chars`). -/
def isSchemeChar (c : Char) : Bool :=
  isAsciiAlpha c || isAsciiDigit c || c == '+' || c == '-' || c == '.'

/-- Python `str.lower()` restricted to ASCII, as an explicit case map.  CPython
applies `lower()` only to a validated scheme prefix, whose characters are all in
`scheme_chars` (ASCII), where Unicode and ASCII lower-casing agree. -/
def pyLowerChar (c : Char) : Char :=
  match c with
  | 'A' => 'a' | 'B' => 'b' | 'C' => 'c' | 'D' => 'd' | 'E' => 'e' | 'F' => 'f'
  | 'G' => 'g' | 'H' => 'h' | 'I' => 'i' | 'J' => 'j' | 'K' => 'k' | 'L' => 'l'
  | 'M' => 'm' | 'N' => 'n' | 'O' => 'o' | 'P' => 'p' | 'Q' => 'q' | 'R' => 'r'
  | 'S' => 's' | 'T' => 't' | 'U' => 'u' | 'V' => 'v' | 'W' => 'w' | 'X' => 'x'
  | 'Y' => 'y' | 'Z' => 'z'
  | c => c

/-- Leading C0 control and space stripped per WHATWG spec
(CPython `_WHATWG_C0_CONTROL_OR_SPACE`, code points 0x00–0x20). -/
def isC0OrSpace (c : Char) : Bool := c.toNat ≤ 0x20

/-- Unsafe bytes removed per WHATWG spec (CPython `_UNSAFE_URL_BYTES_TO_REMOVE`). -/
def isUnsafeUrlByte (c : Char) : Bool := c == '\t' || c == '\r' || c == '\n'

/-- Result of `urlsplit`: scheme, netloc, path, query, fragment. -/
structure SplitResult where
  scheme : List Char
  netloc : List Char
  path : List Char
  query : List Char
  fragment : List Char
deriving Repr, DecidableEq

/-- Result of `urlparse`: `urlsplit` plus the `params` component split off the path. -/
structure ParseResult where
  scheme : List Char
  netloc : List Char
  path : List Char
  params : List Char
  query : List Char
  fragment : List Char
deriving Repr, DecidableEq

/-- Python exceptions surfaced by the modelled code.  `systemExit` stands for
`StackSniffer._abort` (print + `sys.exit()`); it carries the conflicting URL list
(message formatting is presentation, abstracted away). -/
inductive PyErr where
  | valueError (msg : String)
  | stopIteration
  | typeError
  | systemExit (conflicts : List String)
deriving Repr, DecidableEq

/-- CPython scheme recognition in `urlsplit`:
`i = url.find(':'); if i > 0 and url[0].isascii() and url[0].isalpha(): ...` with
every character of `url[:i]` in `scheme_chars`; on success the scheme is
lower-cased and the prefix up to and including the colon is consumed. -/
def splitScheme (l : List Char) : Option (List Char × List Char) :=
  let pre := l.takeWhile (· ≠ ':')
  if pre.length < l.length ∧ pre ≠ [] ∧ isAsciiAlpha (pre.headD ' ') ∧ pre.all isSchemeChar
  then some (pre.map pyLowerChar, (l.dropWhile (· ≠ ':')).drop 1)
  else none

/-- Netloc delimiters searched by CPython `_splitnetloc` (`'/?#'`). -/
def isNetlocDelim (c : Char) : Bool := c == '/' || c == '?' || c == '#'

/-- CPython `_splitnetloc(url, 2)`: the netloc runs from position 2 to the first
of `/?#`, the rest (starting with the delimiter) is returned alongside. -/
def splitnetloc (l : List Char) : List Char × List Char :=
  ((l.drop 2).takeWhile (fun c => !isNetlocDelim c),
   (l.drop 2).dropWhile (fun c => !isNetlocDelim c))

/-- Mismatched-bracket test from CPython `urlsplit` (raises "Invalid IPv6 URL"). -/
def bracketsMismatched (n : List Char) : Bool :=
  (n.contains '[' && !n.contains ']') || (n.contains ']' && !n.contains '[')

/-- Stand-in for CPython `_check_bracketed_host`: the real function validates the
text inside `[...]` as IPv6/IPvFuture via the `ipaddress` library and raises
`ValueError` otherwise.  We model it as accepting every bracketed host; none of
the claims settled in this file depends on which bracketed hosts are rejected,
only on the check being a deterministic function of the netloc (same netloc,
same outcome). -/
def checkBracketedHostOk (_host : List Char) : Bool := true

/-- Text between the first `[` and the following `]`
(CPython `netloc.partition('[')[2].partition(']')[0]`). -/
def bracketContent (n : List Char) : List Char :=
  (((n.dropWhile (· ≠ '[')).drop 1).takeWhile (· ≠ ']'))

/-- Python `s.split(sep, 1)` for a present-or-absent separator: first component is
everything before the first occurrence, second everything after it (empty when
the separator does not occur, matching CPython's guarded splits in `urlsplit`). -/
def splitFirst (sep : Char) (l : List Char) : List Char × List Char :=
  (l.takeWhile (· ≠ sep), (l.dropWhile (· ≠ sep)).drop 1)

/-- CPython 3.11 `urlsplit(url, scheme, allow_fragments=True)` for `str` input.
Steps, in source order: lstrip C0-control/space, remove tab/CR/LF, recognise the
scheme, split the netloc when the remainder starts with `//` (with the bracket
validity checks), split off the fragment at the first `#`, then the query at the
first `?`.  (`_checknetloc` only inspects non-ASCII netlocs via NFKC
normalization; it is modelled as always passing, see `checkBracketedHostOk`.) -/
def urlsplitE (url0 : List Char) (defaultScheme : List Char) : Except PyErr SplitResult :=
  let url1 := (url0.dropWhile isC0OrSpace).filter (fun c => !isUnsafeUrlByte c)
  let sp := splitScheme url1
  let scheme := match sp with | some s => s.1 | none => defaultScheme
  let url2 := match sp with | some s => s.2 | none => url1
  if url2.take 2 = ['/', '/'] then
    let nl := splitnetloc url2
    if bracketsMismatched nl.1 then
      .error (.valueError "Invalid IPv6 URL")
    else if nl.1.contains '[' && nl.1.contains ']' && !checkBracketedHostOk (bracketContent nl.1) then
      .error (.valueError "bracketed host")
    else
      let fr := splitFirst '#' nl.2
      let qu := splitFirst '?' fr.1
      .ok ⟨scheme, nl.1, qu.1, qu.2, fr.2⟩
  else
    let fr := splitFirst '#' url2
    let qu := splitFirst '?' fr.1
    .ok ⟨scheme, [], qu.1, qu.2, fr.2⟩

/-- CPython `uses_relative`. -/
def usesRelative : List (List Char) :=
  ["", "ftp", "http", "gopher", "nntp", "imap", "wais", "file", "https", "shttp",
   "mms", "prospero", "rtsp", "rtsps", "rtspu", "sftp", "svn", "svn+ssh", "ws",
   "wss"].map String.toList

/-- CPython `uses_netloc`. -/
def usesNetloc : List (List Char) :=
  ["", "ftp", "http", "gopher", "nntp", "telnet", "imap", "wais", "file", "mms",
   "https", "shttp", "snews", "prospero", "rtsp", "rtsps", "rtspu", "rsync",
   "svn", "svn+ssh", "sftp", "nfs", "git", "git+ssh", "ws", "wss"].map String.toList

/-- CPython `uses_params`. -/
def usesParams : List (List Char) :=
  ["", "ftp", "hdl", "prospero", "http", "imap", "https", "shttp", "rtsp",
   "rtsps", "rtspu", "sip", "sips", "mms", "sftp", "tel"].map String.toList

/-- CPython `_splitparams(url)`: when the path contains `/`, look for `;` only in
the last segment (`url.find(';', url.rfind('/'))`), otherwise at the first `;`.
`urlparse` only calls this when `;` occurs in the path; for totality the
unreachable no-`;` case returns the path unchanged. -/
def splitparams (p : List Char) : List Char × List Char :=
  if p.contains '/' then
    let after := (p.reverse.takeWhile (· ≠ '/')).reverse
    let before := p.take (p.length - after.length)
    if after.contains ';' then
      (before ++ after.takeWhile (· ≠ ';'), (after.dropWhile (· ≠ ';')).drop 1)
    else (p, [])
  else
    (p.takeWhile (· ≠ ';'), (p.dropWhile (· ≠ ';')).drop 1)

/-- CPython `urlparse(url, scheme, allow_fragments=True)`: `urlsplit` plus the
params split when the scheme uses params and the path contains `;`. -/
def urlparseE (url : List Char) (defaultScheme : List Char) : Except PyErr ParseResult :=
  (urlsplitE url defaultScheme).map fun r =>
    if r.scheme ∈ usesParams ∧ r.path.contains ';' then
      let pp := splitparams r.path
      ⟨r.scheme, r.netloc, pp.1, pp.2, r.query, r.fragment⟩
    else ⟨r.scheme, r.netloc, r.path, [], r.query, r.fragment⟩

/-- CPython 3.11 `urlunsplit`: re-add `//`+netloc when a netloc is present, or when
the scheme uses a netloc and the path does not already begin with `//`; then
prepend `scheme:` and append `?query` / `#fragment` when non-empty. -/
def urlunsplitL (scheme netloc path query fragment : List Char) : List Char :=
  let url :=
    if netloc ≠ [] ∨ (scheme ≠ [] ∧ scheme ∈ usesNetloc ∧ path.take 2 ≠ ['/', '/']) then
      let p2 := if path ≠ [] ∧ path.head? ≠ some '/' then '/' :: path else path
      '/' :: '/' :: (netloc ++ p2)
    else path
  let url := if scheme ≠ [] then scheme ++ ':' :: url else url
  let url := if query ≠ [] then url ++ '?' :: query else url
  if fragment ≠ [] then url ++ '#' :: fragment else url

/-- CPython `urlunparse` / `ParseResult.geturl`: params are re-attached to the path
with `;`, then `urlunsplit`. -/
def urlunparseL (p : ParseResult) : List Char :=
  urlunsplitL p.scheme p.netloc
    (if p.params ≠ [] then p.path ++ ';' :: p.params else p.path) p.query p.fragment

/-- Python `str.split(sep)` (no maxsplit): always returns at least one piece;
`''.split('/') == ['']`. -/
def pySplit (sep : Char) : List Char → List (List Char)
  | [] => [[]]
  | c :: rest =>
    if c = sep then [] :: pySplit sep rest
    else
      match pySplit sep rest with
      | [] => [[c]]
      | g :: gs => (c :: g) :: gs

/-- CPython `urljoin`: `segments[1:-1] = filter(None, segments[1:-1])` — drop empty
segments strictly between the first and the last. -/
def filterMiddle (l : List (List Char)) : List (List Char) :=
  match l with
  | [] => []
  | [x] => [x]
  | x :: rest => x :: ((rest.dropLast.filter (· ≠ [])) ++ [rest.getLastD []])

/-- CPython 3.11 `urljoin(base, url)` (allow_fragments=True), transcribed from
`urllib/parse.py`: empty-argument shortcuts, parse both with the base's scheme as
default, early return of the raw `url` on scheme mismatch or a scheme outside
`uses_relative`, netloc inheritance for `uses_netloc` schemes, the
empty-path/params shortcut, and RFC-3986-style dot-segment resolution of the
merged path. -/
def urljoinE (base url : List Char) : Except PyErr (List Char) :=
  if base = [] then .ok url
  else if url = [] then .ok base
  else do
    let b ← urlparseE base []
    let r ← urlparseE url b.scheme
    if r.scheme ≠ b.scheme ∨ r.scheme ∉ usesRelative then
      return url
    if r.scheme ∈ usesNetloc ∧ r.netloc ≠ [] then
      return urlunparseL ⟨r.scheme, r.netloc, r.path, r.params, r.query, r.fragment⟩
    let netloc := if r.scheme ∈ usesNetloc then b.netloc else r.netloc
    if r.path = [] ∧ r.params = [] then
      let query := if r.query = [] then b.query else r.query
      return urlunparseL ⟨r.scheme, netloc, b.path, b.params, query, r.fragment⟩
    let baseParts0 := pySplit '/' b.path
    let baseParts := if baseParts0.getLastD [] ≠ [] then baseParts0.dropLast else baseParts0
    let segments :=
      if r.path.head? = some '/' then pySplit '/' r.path
      else filterMiddle (baseParts ++ pySplit '/' r.path)
    let resolved := segments.foldl
      (fun acc seg =>
        if seg = ['.', '.'] then acc.dropLast
        else if seg = ['.'] then acc
        else acc ++ [seg]) []
    let resolved :=
      if segments.getLastD [] = ['.'] ∨ segments.getLastD [] = ['.', '.'] then
        resolved ++ [[]]
      else resolved
    let joined := List.intercalate ['/'] resolved
    let path := if joined = [] then ['/'] else joined
    return urlunparseL ⟨r.scheme, netloc, path, r.params, r.query, r.fragment⟩

/-! ## The program's data model (`Data` dataclass and helpers) -/

/-- Python `str.rstrip('/')` on the character-list level. -/
def rstripSlashL (l : List Char) : List Char := (l.reverse.dropWhile (· = '/')).reverse

/-- Python `str.rstrip('/')`. -/
def pyRstripSlash (s : String) : String := ⟨rstripSlashL s.data⟩

/-- One HTML element as delivered by the parser: tag name and attribute list.
`element.get(attr)` is an attribute lookup returning `None` when absent. -/
structure Element where
  tag : String
  attrs : List (String × String)
deriving Repr, DecidableEq

/-- A response body, modelled as its parsed element stream in document order
(BeautifulSoup is an excluded library capability; `find_all` is the only access
the program performs, see `findAll`). -/
abbrev Html := List Element

/-- A Python value stored in the `info` dict: the program's type annotation says
`dict[str, str]` but Python does not enforce it, so the model keeps the dynamic
distinction between strings and integers. -/
inductive PyVal where
  | str (s : String)
  | int (n : Nat)
deriving Repr, DecidableEq

/-- One completed HTTP response (`requests.Response`): final resolved URL, status
code, header mapping and (parsed) body text. -/
structure Response where
  url : String
  status_code : Nat
  headers : List (String × String)
  text : Html
deriving Repr, DecidableEq

/-- The shared `Data` dataclass.  Python sets are modelled as duplicate-free
insertion-ordered lists, the `info` dict as an insertion-ordered association
list.  The `_lock` field is modelled separately (see `LockStep`). -/
structure Data where
  responses : List Response
  urls : List String
  known_urls : List String
  info : List (String × PyVal)
  base_url : Option String
  redirect : Bool
deriving Repr, DecidableEq

/-- Python `set.add`: insert when absent. -/
def setAdd (s : List String) (x : String) : List String :=
  if x ∈ s then s else s ++ [x]

/-- Python `dict.__setitem__`: update in place when present, else append. -/
def dictSet (d : List (String × PyVal)) (k : String) (v : PyVal) : List (String × PyVal) :=
  if d.any (·.1 = k) then d.map (fun kv => if kv.1 = k then (k, v) else kv)
  else d ++ [(k, v)]

/-- The `Data.base_url` property setter: rstrip the trailing slashes, store, and
add the stored form to `known_urls`. -/
def Data.setBase (d : Data) (u : String) : Data :=
  let u' := pyRstripSlash u
  { d with base_url := some u', known_urls := setAdd d.known_urls u' }

/-- `Data.add_response`: append to the response list (runs under `self._lock`). -/
def Data.addResponse (d : Data) (r : Response) : Data :=
  { d with responses := d.responses ++ [r] }

/-- `Data.add_url`: rstrip trailing slashes, drop the URL when already known,
otherwise add it to both `urls` and `known_urls`.  No lock is taken. -/
def Data.addUrl (d : Data) (u : String) : Data :=
  let u' := pyRstripSlash u
  if u' ∈ d.known_urls then d
  else { d with urls := setAdd d.urls u', known_urls := setAdd d.known_urls u' }

/-! ## StackSniffer pipeline stages -/

/-- Building a Python `set` from a traversal (`for resp in ...: urls.add(resp.url)`). -/
def pySetOfList (l : List String) : List String := l.foldl setAdd []

/-- `StackSniffer._validate_url`: default the scheme to `http://` when absent
(assignment goes through the `base_url` setter). -/
def validateUrl (d : Data) : Data :=
  match d.base_url with
  | none => d
  | some b =>
    if b.startsWith "http://" || b.startsWith "https://" then d
    else d.setBase ("http://" ++ b)

/-- `StackSniffer._update_base_url`: no-op when redirects are disabled; otherwise
collect the set of final response URLs, abort on more than one distinct URL
(`_abort`, modelled as `systemExit` carrying the conflict set), and commit the
single one via the `base_url` setter.  `next(iter(urls))` on an empty set raises
`StopIteration`. -/
def updateBaseUrl (d : Data) : Except PyErr Data :=
  if !d.redirect then .ok d
  else
    let urls := pySetOfList (d.responses.map (·.url))
    if urls.length > 1 then .error (.systemExit urls)
    else
      match urls with
      | [] => .error .stopIteration
      | u :: _ => .ok (d.setBase u)

/-! ## HeaderSniffer -/

/-- `HeaderSniffer.HEADERS_TO_CHECK`. -/
def HEADERS_TO_CHECK : List String :=
  ["Server", "X-Powered-By", "X-Generator", "Last-Modified", "X-AspNet-Version",
   "X-AspNetMvc-Version", "X-Runtime", "X-Frame-Options", "Location"]

/-- Lookup in a `requests` `CaseInsensitiveDict` (`header in response.headers`
followed by `response.headers[header]`): case-insensitive on the header name.
Header names are unique up to case in the model, as `requests` merges
duplicates.  Lower-casing is `Char.toLower` character-wise (ASCII, which covers
HTTP header names; Python `str.lower` agrees on ASCII). -/
def ciGet (hs : List (String × String)) (k : String) : Option String :=
  (hs.find? (fun kv => kv.1.data.map Char.toLower = k.data.map Char.toLower)).map (·.2)

/-- `HeaderSniffer._analyze_header`: for each allow-listed name present in the
response headers, store its value in `info`. -/
def analyzeHeader (info : List (String × PyVal)) (r : Response) : List (String × PyVal) :=
  HEADERS_TO_CHECK.foldl
    (fun info h =>
      match ciGet r.headers h with
      | some v => dictSet info h (.str v)
      | none => info) info

/-- The loop body of `HeaderSniffer.__enter__` over the response list:
`info['status_code'] = response.status_code` (an `int`!) then `_analyze_header`. -/
def headerEnterInfo (rs : List Response) (info : List (String × PyVal)) :
    List (String × PyVal) :=
  rs.foldl (fun info r => analyzeHeader (dictSet info "status_code" (.int r.status_code)) r)
    info

/-- `HeaderSniffer.__enter__` as a state transformer: iterates `self.data.responses`
without mutating it. -/
def headerEnter (d : Data) : Data :=
  { d with info := headerEnterInfo d.responses d.info }

/-! ## UrlSniffer -/

/-- `UrlSniffer.TAGS_AND_ATTRIBUTES`, in source (= dict insertion) order. -/
def TAGS_AND_ATTRIBUTES : List (String × String) :=
  [("a", "href"), ("img", "src"), ("link", "href"), ("form", "action"),
   ("area", "href"), ("base", "href"), ("embed", "src"), ("frame", "src"),
   ("script", "src"), ("iframe", "src"), ("source", "src")]

/-- `soup.find_all(tag)`: the elements with the given tag, in document order. -/
def findAll (tag : String) (soup : Html) : List Element := soup.filter (·.tag = tag)

/-- `element.get(attribute)`. -/
def elemGet (e : Element) (attr : String) : Option String :=
  (e.attrs.find? (·.1 = attr)).map (·.2)

/-- The body of the inner loop of `UrlSniffer._find_url_in_html` for one element:
skip missing/empty attribute values (`if not valor: continue`), resolve against
the base URL, parse, skip when the netloc is non-empty and differs from the
target netloc, clear the fragment, serialize, and insert via `add_url`.  An
exception from the URL library aborts the stage (second component). -/
def processElement (base : String) (netloc : List Char) (d : Data) (e : Element)
    (attr : String) : Data × Option PyErr :=
  match elemGet e attr with
  | none => (d, none)
  | some valor =>
    if valor = "" then (d, none)
    else
      match urljoinE base.data valor.data with
      | .error err => (d, some err)
      | .ok absolut =>
        match urlparseE absolut [] with
        | .error err => (d, some err)
        | .ok parsed =>
          if parsed.netloc ≠ [] ∧ parsed.netloc ≠ netloc then (d, none)
          else
            let cleanUrl : String := ⟨urlunparseL { parsed with fragment := [] }⟩
            (d.addUrl cleanUrl, none)

/-- One iteration of the inner element loop of `_find_url_in_html`: a pending
exception short-circuits (the loop is never resumed past a raise). -/
def elemStep (base : String) (netloc : List Char) (attr : String)
    (st : Data × Option PyErr) (e : Element) : Data × Option PyErr :=
  match st with
  | (d, none) => processElement base netloc d e attr
  | st => st

/-- One iteration of the outer tag loop of `_find_url_in_html`:
`for element in self._soup.find_all(tag)`. -/
def tagStep (base : String) (netloc : List Char) (soup : Html)
    (st : Data × Option PyErr) (ta : String × String) : Data × Option PyErr :=
  (findAll ta.1 soup).foldl (elemStep base netloc ta.2) st

/-- `UrlSniffer._find_url_in_html`: iterate the tag table, and for each tag all
matching elements; a raised exception short-circuits the rest. -/
def findUrlInHtml (base : String) (netloc : List Char) (soup : Html)
    (st : Data × Option PyErr) : Data × Option PyErr :=
  TAGS_AND_ATTRIBUTES.foldl (tagStep base netloc soup) st

/-- The `while self.data.responses: response = self.data.responses.pop()` drain of
`UrlSniffer.__enter__`, processed here over the reversed response list (`pop`
takes from the end); the `responses` field is rewritten to the not-yet-popped
part before each body run, so an exception leaves the unprocessed responses in
place, as in Python. -/
def urlLoopRev (base : String) (netloc : List Char) :
    List Response → Data → Data × Option PyErr
  | [], d => (d, none)
  | r :: rest, d =>
    let d1 := { d with responses := rest.reverse }
    let res := findUrlInHtml base netloc r.text (d1, none)
    match res.2 with
    | none => urlLoopRev base netloc rest res.1
    | some e => (res.1, some e)

/-- `UrlSniffer` construction plus `__enter__`: compute the target netloc from the
current base URL (`urlparse(self.data.base_url).netloc`; a `None` base would
raise `TypeError` inside `urlparse`), then drain the response list. -/
def urlEnter (d : Data) : Data × Option PyErr :=
  match d.base_url with
  | none => (d, some .typeError)
  | some base =>
    match urlparseE base.data [] with
    | .error e => (d, some e)
    | .ok pb => urlLoopRev base pb.netloc d.responses.reverse d

/-- The post-dispatch core of `StackSniffer.analyze`: `_update_base_url`, then the
header stage, then the link-extraction stage (`_display_results` is excluded
presentation). -/
def coreAfterDispatch (d : Data) : Data × Option PyErr :=
  match updateBaseUrl d with
  | .error e => (d, some e)
  | .ok d1 => urlEnter (headerEnter d1)

/-! ## Lock-usage model for the shared-state operations

The `Data` methods are straight-line; their use of `self._lock` is captured as a
step trace, where `touchShared` is any read or write of the shared collections
(`responses`, `urls`, `known_urls`). -/

/-- One atomic step of a `Data` method, as far as locking is concerned. -/
inductive LockStep where
  | acquire
  | release
  | touchShared
deriving Repr, DecidableEq

/-- `Data.add_response`: `with self._lock: self.responses.append(response)`. -/
def addResponseTrace : List LockStep := [.acquire, .touchShared, .release]

/-- `Data.add_url`: membership test on `known_urls`, then (when absent) the two
set inserts.  The body acquires no lock. -/
def addUrlTrace (alreadyKnown : Bool) : List LockStep :=
  if alreadyKnown then [.touchShared] else [.touchShared, .touchShared, .touchShared]

/-- A trace is mutual-exclusion guarded when every shared-collection access
happens at positive lock depth (and releases are balanced). -/
def guardedAux : Nat → List LockStep → Bool
  | _, [] => true
  | depth, .acquire :: rest => guardedAux (depth + 1) rest
  | depth, .release :: rest => depth != 0 && guardedAux (depth - 1) rest
  | depth, .touchShared :: rest => depth != 0 && guardedAux depth rest

/-- Mutual exclusion around the underlying collection, for a whole method body. -/
def mutualExclusionGuarded (t : List LockStep) : Bool := guardedAux 0 t

/-! ## Basic lemmas about the Python set/dict models -/

theorem mem_setAdd {s : List String} {y x : String} : x ∈ setAdd s y ↔ x ∈ s ∨ x = y := by
  unfold setAdd
  split
  · rename_i h
    constructor
    · exact .inl
    · rintro (hx | rfl)
      · exact hx
      · exact h
  · constructor
    · intro hx
      rcases List.mem_append.1 hx with hx | hx
      · exact .inl hx
      · exact .inr (List.mem_singleton.1 hx)
    · rintro (hx | rfl)
      · exact List.mem_append.2 (.inl hx)
      · exact List.mem_append.2 (.inr (List.mem_singleton.2 rfl))

theorem mem_foldl_setAdd (l : List String) (acc : List String) (x : String) :
    x ∈ l.foldl setAdd acc ↔ x ∈ acc ∨ x ∈ l := by
  induction l generalizing acc with
  | nil => simp
  | cons a l ih =>
    rw [List.foldl_cons, ih]
    rw [mem_setAdd]
    simp only [List.mem_cons]
    tauto

theorem mem_pySetOfList {l : List String} {x : String} : x ∈ pySetOfList l ↔ x ∈ l := by
  rw [pySetOfList, mem_foldl_setAdd]
  simp

theorem foldl_setAdd_const (u : String) (l : List String) (h : ∀ x ∈ l, x = u) :
    l.foldl setAdd [u] = [u] := by
  induction l with
  | nil => rfl
  | cons a l ih =>
    have ha : a = u := h a (List.mem_cons_self a l)
    subst ha
    rw [List.foldl_cons]
    have : setAdd [a] a = [a] := by simp [setAdd]
    rw [this]
    exact ih fun x hx => h x (List.mem_cons_of_mem a hx)

theorem pySetOfList_const {u : String} {l : List String} (hne : l ≠ [])
    (h : ∀ x ∈ l, x = u) : pySetOfList l = [u] := by
  cases l with
  | nil => exact absurd rfl hne
  | cons a l =>
    have ha : a = u := h a (List.mem_cons_self a l)
    subst ha
    rw [pySetOfList, List.foldl_cons]
    have : setAdd [] a = [a] := by simp [setAdd]
    rw [this]
    exact foldl_setAdd_const a l fun x hx => h x (List.mem_cons_of_mem a hx)

theorem one_lt_length_of_two_mem {l : List String} {a b : String} (ha : a ∈ l)
    (hb : b ∈ l) (hne : a ≠ b) : 1 < l.length := by
  cases l with
  | nil => cases ha
  | cons x xs =>
    cases xs with
    | nil =>
      rw [List.mem_singleton] at ha hb
      exact absurd (ha.trans hb.symm) hne
    | cons y ys => simp [List.length_cons]

/-! ## Concrete states used by counterexamples, code-bug demonstrations and witnesses -/

/-- All probes failed, redirect following enabled. -/
def dataEmptyRedirect : Data :=
  { responses := [], urls := [], known_urls := ["http://example.com"], info := [],
    base_url := some "http://example.com", redirect := true }

/-- Two probes that agree on the final URL (with a trailing slash). -/
def respAgree : Response :=
  { url := "https://example.com/", status_code := 200, headers := [], text := [] }

/-- State after dispatch with two agreeing redirected probes. -/
def dataTwoAgree : Data :=
  { responses := [respAgree, respAgree], urls := [], known_urls := [], info := [],
    base_url := some "http://example.com", redirect := true }

/-- A response whose headers use a lower-case `server` name. -/
def respLowerServer : Response :=
  { url := "http://example.com", status_code := 200, headers := [("server", "nginx")],
    text := [] }

/-- State after dispatch with the single `respLowerServer` response. -/
def dataOneResponse : Data :=
  { responses := [respLowerServer], urls := [], known_urls := [], info := [],
    base_url := some "http://example.com", redirect := false }

/-- C1 (code_bug): the spec says an empty response set must not raise in the core,
whatever the redirect flag.  With redirect following enabled the code reaches
`next(iter(urls))` on an empty set in `_update_base_url` and raises
`StopIteration`; with it disabled the core indeed completes without an exception
and hands back an empty FingerprintReport and an empty URLFrontier. -/
theorem claim_C1_empty_response_set :
    updateBaseUrl dataEmptyRedirect = .error .stopIteration ∧
    coreAfterDispatch { dataEmptyRedirect with redirect := false } =
      ({ dataEmptyRedirect with redirect := false }, none) ∧
    ({ dataEmptyRedirect with redirect := false }).info = [] ∧
    ({ dataEmptyRedirect with redirect := false }).urls = [] :=
  ⟨by decide, by decide, rfl, rfl⟩

/-- C2 (confirmed): with redirect following disabled, `_update_base_url` is a no-op.
With it enabled and a non-empty response set: if every final resolved URL is the
same `u`, the run continues with the Target committed to `u` rstripped of
trailing slashes; if two responses resolved to different URLs, the run aborts
(`_abort`, i.e. `SystemExit`) with the conflicting URL set. -/
theorem claim_C2_redirect_reconciliation (d : Data) :
    (d.redirect = false → updateBaseUrl d = .ok d) ∧
    (d.redirect = true → d.responses ≠ [] →
      ∀ u, (∀ r ∈ d.responses, r.url = u) →
        updateBaseUrl d = .ok (d.setBase u) ∧
        (d.setBase u).base_url = some (pyRstripSlash u)) ∧
    (d.redirect = true →
      ∀ r₁ ∈ d.responses, ∀ r₂ ∈ d.responses, r₁.url ≠ r₂.url →
        ∃ conflicts, updateBaseUrl d = .error (.systemExit conflicts) ∧
          ∀ x, x ∈ conflicts ↔ ∃ r ∈ d.responses, r.url = x) := by
  refine ⟨?_, ?_, ?_⟩
  · intro h
    unfold updateBaseUrl
    rw [h]
    rfl
  · intro hr hne u hall
    have hmapne : d.responses.map (·.url) ≠ [] := by
      simpa using hne
    have hconst : pySetOfList (d.responses.map (·.url)) = [u] :=
      pySetOfList_const hmapne (by
        intro x hx
        rcases List.mem_map.1 hx with ⟨r, hrmem, rfl⟩
        exact hall r hrmem)
    refine ⟨?_, rfl⟩
    unfold updateBaseUrl
    rw [hr]
    simp only [Bool.not_true]
    rw [if_neg (by simp)]
    rw [hconst]
    rfl
  · intro hr r₁ h₁ r₂ h₂ hne
    refine ⟨pySetOfList (d.responses.map (·.url)), ?_, ?_⟩
    · have hlen : 1 < (pySetOfList (d.responses.map (·.url))).length :=
        one_lt_length_of_two_mem
          (mem_pySetOfList.2 (List.mem_map.2 ⟨r₁, h₁, rfl⟩))
          (mem_pySetOfList.2 (List.mem_map.2 ⟨r₂, h₂, rfl⟩)) hne
      unfold updateBaseUrl
      rw [hr]
      simp only [Bool.not_true]
      rw [if_neg (by simp)]
      rw [if_pos hlen]
    · intro x
      rw [mem_pySetOfList, List.mem_map]

/-- C2 witness: two probes both resolved to `https://example.com/`; the Target
becomes `https://example.com` and no error is raised. -/
theorem claim_C2_witness :
    updateBaseUrl dataTwoAgree = .ok (dataTwoAgree.setBase "https://example.com/") ∧
    (dataTwoAgree.setBase "https://example.com/").base_url = some "https://example.com" := by
  have h := (claim_C2_redirect_reconciliation dataTwoAgree).2.1 rfl (by decide)
    "https://example.com/" (by decide)
  exact ⟨h.1, h.2.trans (by decide)⟩

/-- C7 (code_bug): the `info` dict is annotated `dict[str, str]` and the spec says
all report values are strings, but `HeaderSniffer.__enter__` stores the integer
`response.status_code` unchanged under the key `status_code` (header values, by
contrast, arrive as strings; note also the case-insensitive header match turning
`server` into the allow-list key `Server`). -/
theorem claim_C7_status_code_stored_as_int :
    (headerEnter dataOneResponse).info =
      [("status_code", .int 200), ("Server", .str "nginx")] ∧
    ∀ s : String, PyVal.int 200 ≠ PyVal.str s :=
  ⟨by decide, fun _ h => PyVal.noConfusion h⟩

/-- C9 (counterexample): the claim says both mutating operations of the shared
state run under mutual exclusion; `Data.add_url` touches the shared sets with
the lock at depth zero, so its trace is not mutual-exclusion guarded. -/
theorem claim_C9_counterexample :
    ¬ (mutualExclusionGuarded addResponseTrace = true ∧
       ∀ b, mutualExclusionGuarded (addUrlTrace b) = true) := by
  decide

/-- C9 (amended): `add_response` performs its append entirely under `self._lock`;
`add_url` performs no lock operation at all (it is only invoked from the
single-threaded link-extraction stage). -/
theorem claim_C9_amended :
    mutualExclusionGuarded addResponseTrace = true ∧
    ∀ b, (addUrlTrace b).all
      (fun s => s != LockStep.acquire && s != LockStep.release) = true := by
  decide

/-! ## C6: keys of the fingerprint report -/

theorem mem_keys_dictSet {d : List (String × PyVal)} {k x : String} {v : PyVal}
    (hx : x ∈ (dictSet d k v).map Prod.fst) : x ∈ d.map Prod.fst ∨ x = k := by
  unfold dictSet at hx
  split at hx
  · rw [List.map_map] at hx
    rcases List.mem_map.1 hx with ⟨kv, hkv, heq⟩
    by_cases hk : kv.1 = k
    · right
      rw [← heq]
      simp [Function.comp, hk]
    · left
      rw [← heq]
      simp only [Function.comp, if_neg hk]
      exact List.mem_map.2 ⟨kv, hkv, rfl⟩
  · rw [List.map_append] at hx
    rcases List.mem_append.1 hx with h | h
    · exact .inl h
    · right
      simpa using h

theorem mem_keys_header_foldl {hs : List String} {r : Response}
    {info : List (String × PyVal)} {x : String}
    (hx : x ∈ (hs.foldl (fun info h => match ciGet r.headers h with
        | some v => dictSet info h (.str v)
        | none => info) info).map Prod.fst) :
    x ∈ info.map Prod.fst ∨ x ∈ hs := by
  induction hs generalizing info with
  | nil => exact .inl hx
  | cons h hs ih =>
    rw [List.foldl_cons] at hx
    rcases ih hx with hmem | hmem
    · cases hget : ciGet r.headers h with
      | some v =>
        rw [hget] at hmem
        rcases mem_keys_dictSet hmem with hmem' | hmem'
        · exact .inl hmem'
        · exact .inr (hmem' ▸ List.mem_cons_self h hs)
      | none =>
        rw [hget] at hmem
        exact .inl hmem
    · exact .inr (List.mem_cons_of_mem h hmem)

theorem mem_keys_analyzeHeader {r : Response} {info : List (String × PyVal)}
    {x : String} (hx : x ∈ (analyzeHeader info r).map Prod.fst) :
    x ∈ info.map Prod.fst ∨ x ∈ HEADERS_TO_CHECK := by
  rw [analyzeHeader] at hx
  exact mem_keys_header_foldl hx

theorem mem_keys_headerEnterInfo {rs : List Response} {info : List (String × PyVal)}
    {x : String} (hx : x ∈ (headerEnterInfo rs info).map Prod.fst) :
    x ∈ info.map Prod.fst ∨ x = "status_code" ∨ x ∈ HEADERS_TO_CHECK := by
  induction rs generalizing info with
  | nil => exact .inl hx
  | cons r rs ih =>
    rw [headerEnterInfo, List.foldl_cons] at hx
    rw [← headerEnterInfo] at hx
    rcases ih hx with hmem | hmem
    · rcases mem_keys_analyzeHeader hmem with hmem' | hmem'
      · rcases mem_keys_dictSet hmem' with hmem'' | hmem''
        · exact .inl hmem''
        · exact .inr (.inl hmem'')
      · exact .inr (.inr hmem')
    · exact .inr hmem

/-- C6 (confirmed): every key the header stage ever places in the
FingerprintReport is either the synthetic `status_code` or one of the nine
allow-listed header names; no other response header leaks through (the
case-insensitive name matching lives in `ciGet`). -/
theorem claim_C6_allowlist (rs : List Response) :
    ((headerEnterInfo rs []).map Prod.fst).all
      (fun k => k == "status_code" || HEADERS_TO_CHECK.contains k) = true := by
  rw [List.all_eq_true]
  intro k hk
  rcases mem_keys_headerEnterInfo hk with h | h | h
  · simp at h
  · simp [h]
  · simp only [Bool.or_eq_true, beq_iff_eq]
    exact .inr (List.elem_eq_true_of_mem h)

/-! ## C4: which tags link extraction reads from -/

/-- The tag→attribute table exactly as the spec states it (section 4.5): ten
entries, with no `img` row.  This definition follows the spec's words, for
comparison against the source's `TAGS_AND_ATTRIBUTES`. -/
def specTagTable : List (String × String) :=
  [("a", "href"), ("link", "href"), ("form", "action"), ("area", "href"),
   ("base", "href"), ("embed", "src"), ("frame", "src"), ("script", "src"),
   ("iframe", "src"), ("source", "src")]

/-- A response whose body contains a single `img` element with a same-origin
`src`. -/
def respImg : Response :=
  { url := "http://example.com", status_code := 200, headers := [],
    text := [⟨"img", [("src", "/x")]⟩] }

/-- State after dispatch with the single `respImg` response. -/
def dataImg : Data :=
  { responses := [respImg], urls := [], known_urls := ["http://example.com"], info := [],
    base_url := some "http://example.com", redirect := false }

theorem findAll_filter_of_mem {tag : String} {tags : List String} (h : tag ∈ tags)
    (soup : Html) :
    findAll tag (soup.filter (fun e => tags.contains e.tag)) = findAll tag soup := by
  unfold findAll
  rw [List.filter_filter]
  apply List.filter_congr
  intro e _
  by_cases he : e.tag = tag
  · subst he
    have hc : tags.contains e.tag = true := List.elem_eq_true_of_mem h
    simp [hc, h]
  · simp [he]

theorem tags_foldl_filter (base : String) (netloc : List Char) (soup : Html)
    (tags : List String) (tas : List (String × String))
    (h : ∀ ta ∈ tas, ta.1 ∈ tags) (st : Data × Option PyErr) :
    tas.foldl (tagStep base netloc soup) st =
      tas.foldl (tagStep base netloc (soup.filter (fun e => tags.contains e.tag))) st := by
  induction tas generalizing st with
  | nil => rfl
  | cons ta tas ih =>
    rw [List.foldl_cons, List.foldl_cons]
    have hta : tagStep base netloc soup st ta =
        tagStep base netloc (soup.filter (fun e => tags.contains e.tag)) st ta := by
      unfold tagStep
      rw [findAll_filter_of_mem (h ta (List.mem_cons_self ta tas)) soup]
    rw [← hta]
    exact ih (fun ta' h' => h ta' (List.mem_cons_of_mem ta h')) _

/-- C4 (counterexample): the claim's table (the spec's, without `img`) does not
cover every tag the code reads: on a body containing only an `img` element the
extraction inserts a URL, while the same extraction restricted to the spec's
tags inserts nothing.  The concrete full run on `dataImg` inserts
`http://example.com/x` read from `img/src`. -/
theorem claim_C4_counterexample :
    findUrlInHtml "http://example.com" "example.com".data respImg.text (dataImg, none) ≠
      findUrlInHtml "http://example.com" "example.com".data
        (respImg.text.filter (fun e => (specTagTable.map Prod.fst).contains e.tag))
        (dataImg, none) ∧
    (urlEnter dataImg).1.urls = ["http://example.com/x"] := by
  constructor
  · decide
  · decide

/-- C4 (amended): link extraction reads URL-bearing attribute values only from
elements whose tag appears in the code's fixed table — the spec's ten rows plus
`img`/`src` — and from no other tag: filtering a body down to those tags never
changes the extraction result. -/
theorem claim_C4_amended (soup : Html) (base : String) (netloc : List Char)
    (st : Data × Option PyErr) :
    findUrlInHtml base netloc soup st =
      findUrlInHtml base netloc
        (soup.filter (fun e => (TAGS_AND_ATTRIBUTES.map Prod.fst).contains e.tag)) st := by
  unfold findUrlInHtml
  exact tags_foldl_filter base netloc soup (TAGS_AND_ATTRIBUTES.map Prod.fst)
    TAGS_AND_ATTRIBUTES (fun ta h => List.mem_map.2 ⟨ta, h, rfl⟩) st

/-! ## C5: the header stage does not consume the response set -/

theorem addUrl_info (d : Data) (i : List (String × PyVal)) (u : String) :
    Data.addUrl { d with info := i } u = { d.addUrl u with info := i } := by
  unfold Data.addUrl
  by_cases h : pyRstripSlash u ∈ d.known_urls
  · simp [h]
  · simp [h]

theorem processElement_info (base : String) (netloc : List Char) (d : Data)
    (i : List (String × PyVal)) (e : Element) (attr : String) :
    processElement base netloc { d with info := i } e attr =
      ({ (processElement base netloc d e attr).1 with info := i },
        (processElement base netloc d e attr).2) := by
  unfold processElement
  cases hg : elemGet e attr with
  | none => rfl
  | some valor =>
    by_cases hv : valor = ""
    · simp [hv]
    · simp only [if_neg hv]
      cases hj : urljoinE base.data valor.data with
      | error err => rfl
      | ok absolut =>
        dsimp only
        cases hp : urlparseE absolut [] with
        | error err => rfl
        | ok parsed =>
          dsimp only
          by_cases hn : parsed.netloc ≠ [] ∧ parsed.netloc ≠ netloc
          · simp [hn]
          · simp only [if_neg hn]
            rw [addUrl_info]

theorem elemStep_info (base : String) (netloc : List Char) (attr : String) (d : Data)
    (i : List (String × PyVal)) (err : Option PyErr) (e : Element) :
    elemStep base netloc attr ({ d with info := i }, err) e =
      ({ (elemStep base netloc attr (d, err) e).1 with info := i },
        (elemStep base netloc attr (d, err) e).2) := by
  cases err with
  | none => exact processElement_info base netloc d i e attr
  | some er => rfl

theorem foldl_elemStep_info (base : String) (netloc : List Char) (attr : String)
    (els : List Element) (d : Data) (i : List (String × PyVal)) (err : Option PyErr) :
    els.foldl (elemStep base netloc attr) ({ d with info := i }, err) =
      ({ (els.foldl (elemStep base netloc attr) (d, err)).1 with info := i },
        (els.foldl (elemStep base netloc attr) (d, err)).2) := by
  induction els generalizing d err with
  | nil => rfl
  | cons e els ih =>
    rw [List.foldl_cons, List.foldl_cons, elemStep_info]
    exact ih _ _

theorem findUrlInHtml_info (base : String) (netloc : List Char) (soup : Html)
    (d : Data) (i : List (String × PyVal)) (err : Option PyErr) :
    findUrlInHtml base netloc soup ({ d with info := i }, err) =
      ({ (findUrlInHtml base netloc soup (d, err)).1 with info := i },
        (findUrlInHtml base netloc soup (d, err)).2) := by
  unfold findUrlInHtml
  generalize TAGS_AND_ATTRIBUTES = tas
  induction tas generalizing d err with
  | nil => rfl
  | cons ta tas ih =>
    rw [List.foldl_cons, List.foldl_cons]
    unfold tagStep
    rw [foldl_elemStep_info]
    exact ih _ _

theorem urlLoopRev_info (base : String) (netloc : List Char) (rs : List Response)
    (d dLift : Data) (i : List (String × PyVal)) (hLift : dLift = { d with info := i }) :
    urlLoopRev base netloc rs dLift =
      ({ (urlLoopRev base netloc rs d).1 with info := i },
        (urlLoopRev base netloc rs d).2) := by
  induction rs generalizing d dLift with
  | nil =>
    subst hLift
    rfl
  | cons r rs ih =>
    subst hLift
    unfold urlLoopRev
    dsimp only
    have hF := findUrlInHtml_info base netloc r.text { d with responses := rs.reverse } i none
    have hF1 : (findUrlInHtml base netloc r.text
          ({ { d with responses := rs.reverse } with info := i }, none)).1 =
        { (findUrlInHtml base netloc r.text ({ d with responses := rs.reverse }, none)).1 with
          info := i } := by rw [hF]
    have hF2 : (findUrlInHtml base netloc r.text
          ({ { d with responses := rs.reverse } with info := i }, none)).2 =
        (findUrlInHtml base netloc r.text ({ d with responses := rs.reverse }, none)).2 := by
      rw [hF]
    rw [show ({ responses := rs.reverse, urls := d.urls, known_urls := d.known_urls, info := i, base_url := d.base_url, redirect := d.redirect } : Data) = { { d with responses := rs.reverse } with info := i } from rfl]
    rw [hF1, hF2]
    cases ho : (findUrlInHtml base netloc r.text
        ({ d with responses := rs.reverse }, none)).2 with
    | none => exact ih _ _ rfl
    | some e => rfl

theorem urlEnter_info (d : Data) (i : List (String × PyVal)) :
    urlEnter { d with info := i } =
      ({ (urlEnter d).1 with info := i }, (urlEnter d).2) := by
  obtain ⟨resp, us, ks, inf, bu, red⟩ := d
  cases bu with
  | none => rfl
  | some base =>
    unfold urlEnter
    dsimp only
    cases hp : urlparseE base.data [] with
    | error e => rfl
    | ok pb =>
      exact urlLoopRev_info base pb.netloc resp.reverse
        ⟨resp, us, ks, inf, some base, red⟩ _ i rfl

/-- C5 (confirmed): the header-fingerprinting stage iterates the response list
without consuming it, so the link-extraction stage that runs next sees exactly
the response set that dispatch produced: running the link stage after the header
stage equals running it directly, with the header stage's report patched in. -/
theorem claim_C5_frame (d : Data) :
    (headerEnter d).responses = d.responses ∧
    urlEnter (headerEnter d) =
      ({ (urlEnter d).1 with info := headerEnterInfo d.responses d.info },
        (urlEnter d).2) := by
  exact ⟨rfl, urlEnter_info d (headerEnterInfo d.responses d.info)⟩

/-! ## Outcome characterization of the per-element processing

The decision taken for one element (skip, raise, or insert a given URL) depends
only on the base URL, the target netloc and the element — not on the mutable
state.  This is the key to the monotonicity, idempotence and invariant proofs. -/

/-- What `processElement` decides for one element: `none` = skip, an error = the
exception raised, or the `clean_url` string passed to `add_url`. -/
def elemOutcome (base : String) (netloc : List Char) (e : Element) (attr : String) :
    Option (Except PyErr String) :=
  match elemGet e attr with
  | none => none
  | some valor =>
    if valor = "" then none
    else
      match urljoinE base.data valor.data with
      | .error err => some (.error err)
      | .ok absolut =>
        match urlparseE absolut [] with
        | .error err => some (.error err)
        | .ok parsed =>
          if parsed.netloc ≠ [] ∧ parsed.netloc ≠ netloc then none
          else some (.ok ⟨urlunparseL { parsed with fragment := [] }⟩)

theorem processElement_char (base : String) (netloc : List Char) (d : Data)
    (e : Element) (attr : String) :
    processElement base netloc d e attr =
      match elemOutcome base netloc e attr with
      | none => (d, none)
      | some (.error err) => (d, some err)
      | some (.ok c) => (d.addUrl c, none) := by
  unfold processElement elemOutcome
  cases hg : elemGet e attr with
  | none => rfl
  | some valor =>
    dsimp only
    by_cases hv : valor = ""
    · simp [hv]
    · simp only [if_neg hv]
      cases hj : urljoinE base.data valor.data with
      | error err => rfl
      | ok absolut =>
        dsimp only
        cases hp : urlparseE absolut [] with
        | error err => rfl
        | ok parsed =>
          dsimp only
          by_cases hn : parsed.netloc ≠ [] ∧ parsed.netloc ≠ netloc
          · simp [hn]
          · simp [hn]

/-! ## C10: the base URL never enters the frontier -/

theorem addUrl_known_mono (d : Data) (u : String) {x : String} (h : x ∈ d.known_urls) :
    x ∈ (d.addUrl u).known_urls := by
  unfold Data.addUrl
  dsimp only
  by_cases hc : pyRstripSlash u ∈ d.known_urls
  · simp only [if_pos hc]
    exact h
  · simp only [if_neg hc]
    exact mem_setAdd.2 (.inl h)

theorem addUrl_not_in_urls (d : Data) (u : String) {b : String}
    (hk : b ∈ d.known_urls) (hu : b ∉ d.urls) : b ∉ (d.addUrl u).urls := by
  unfold Data.addUrl
  dsimp only
  by_cases hc : pyRstripSlash u ∈ d.known_urls
  · simp only [if_pos hc]
    exact hu
  · simp only [if_neg hc]
    intro hmem
    rcases mem_setAdd.1 hmem with h | h
    · exact hu h
    · exact hc (h ▸ hk)

theorem addUrl_absorb (d : Data) (u : String) (h : pyRstripSlash u ∈ d.known_urls) :
    d.addUrl u = d := by
  unfold Data.addUrl
  simp [h]

theorem addUrl_key_mem (d : Data) (u : String) :
    pyRstripSlash u ∈ (d.addUrl u).known_urls := by
  unfold Data.addUrl
  dsimp only
  by_cases hc : pyRstripSlash u ∈ d.known_urls
  · simp only [if_pos hc]
    exact hc
  · simp only [if_neg hc]
    exact mem_setAdd.2 (.inr rfl)

theorem processElement_preserves (base : String) (netloc : List Char) (d : Data)
    (e : Element) (attr : String) {b : String}
    (hk : b ∈ d.known_urls) (hu : b ∉ d.urls) :
    b ∈ (processElement base netloc d e attr).1.known_urls ∧
    b ∉ (processElement base netloc d e attr).1.urls := by
  rw [processElement_char]
  cases elemOutcome base netloc e attr with
  | none => exact ⟨hk, hu⟩
  | some exc =>
    cases exc with
    | error err => exact ⟨hk, hu⟩
    | ok c => exact ⟨addUrl_known_mono d c hk, addUrl_not_in_urls d c hk hu⟩

theorem elemStep_preserves (base : String) (netloc : List Char) (attr : String)
    (st : Data × Option PyErr) (e : Element) {b : String}
    (hk : b ∈ st.1.known_urls) (hu : b ∉ st.1.urls) :
    b ∈ (elemStep base netloc attr st e).1.known_urls ∧
    b ∉ (elemStep base netloc attr st e).1.urls := by
  obtain ⟨d, err⟩ := st
  cases err with
  | none => exact processElement_preserves base netloc d e attr hk hu
  | some er => exact ⟨hk, hu⟩

theorem foldl_elemStep_preserves (base : String) (netloc : List Char) (attr : String)
    (els : List Element) (st : Data × Option PyErr) {b : String}
    (hk : b ∈ st.1.known_urls) (hu : b ∉ st.1.urls) :
    b ∈ (els.foldl (elemStep base netloc attr) st).1.known_urls ∧
    b ∉ (els.foldl (elemStep base netloc attr) st).1.urls := by
  induction els generalizing st with
  | nil => exact ⟨hk, hu⟩
  | cons e els ih =>
    rw [List.foldl_cons]
    have h := elemStep_preserves base netloc attr st e hk hu
    exact ih _ h.1 h.2

theorem findUrlInHtml_preserves (base : String) (netloc : List Char) (soup : Html)
    (st : Data × Option PyErr) {b : String}
    (hk : b ∈ st.1.known_urls) (hu : b ∉ st.1.urls) :
    b ∈ (findUrlInHtml base netloc soup st).1.known_urls ∧
    b ∉ (findUrlInHtml base netloc soup st).1.urls := by
  unfold findUrlInHtml
  generalize TAGS_AND_ATTRIBUTES = tas
  induction tas generalizing st with
  | nil => exact ⟨hk, hu⟩
  | cons ta tas ih =>
    rw [List.foldl_cons]
    have h := foldl_elemStep_preserves base netloc ta.2 (findAll ta.1 soup) st hk hu
    exact ih _ h.1 h.2

theorem urlLoopRev_preserves (base : String) (netloc : List Char) (rs : List Response)
    (d : Data) {b : String} (hk : b ∈ d.known_urls) (hu : b ∉ d.urls) :
    b ∈ (urlLoopRev base netloc rs d).1.known_urls ∧
    b ∉ (urlLoopRev base netloc rs d).1.urls := by
  induction rs generalizing d with
  | nil => exact ⟨hk, hu⟩
  | cons r rs ih =>
    unfold urlLoopRev
    dsimp only
    have h := findUrlInHtml_preserves base netloc r.text
      ({ d with responses := rs.reverse }, none) (b := b) hk hu
    cases ho : (findUrlInHtml base netloc r.text ({ d with responses := rs.reverse }, none)).2
      with
    | none => exact ih _ h.1 h.2
    | some e => exact h

theorem urlEnter_preserves (d : Data) {b : String}
    (hk : b ∈ d.known_urls) (hu : b ∉ d.urls) :
    b ∈ (urlEnter d).1.known_urls ∧ b ∉ (urlEnter d).1.urls := by
  unfold urlEnter
  cases hb : d.base_url with
  | none => exact ⟨hk, hu⟩
  | some base =>
    dsimp only
    cases hp : urlparseE base.data [] with
    | error e => exact ⟨hk, hu⟩
    | ok pb => exact urlLoopRev_preserves base pb.netloc d.responses.reverse d hk hu

/-- C10 (confirmed): every `base_url` setter call adds the trailing-slash-stripped
form of the URL to the known-URL set; consequently a base URL that is known and
not in the frontier can never be inserted into the frontier by link extraction,
and `add_url` on any URL whose stripped form equals the base is a no-op. -/
theorem claim_C10_base_never_in_frontier (d : Data) (b : String)
    (_hbase : d.base_url = some b) (hk : b ∈ d.known_urls) (hu : b ∉ d.urls) :
    b ∉ (urlEnter d).1.urls ∧
    (∀ u, pyRstripSlash u = b → d.addUrl u = d) ∧
    (∀ (e : Data) (v : String),
      (e.setBase v).base_url = some (pyRstripSlash v) ∧
      pyRstripSlash v ∈ (e.setBase v).known_urls) := by
  refine ⟨(urlEnter_preserves d hk hu).2, ?_, ?_⟩
  · intro u h
    exact addUrl_absorb d u (h ▸ hk)
  · intro e v
    exact ⟨rfl, mem_setAdd.2 (.inr rfl)⟩

/-- C10 witness: in the concrete `dataImg` state the base `http://example.com` is
known and absent from the frontier; it stays out of the frontier after the full
link-extraction stage, inserting `http://example.com/` is a no-op, and the
setter strips and registers the base. -/
theorem claim_C10_witness :
    "http://example.com" ∉ (urlEnter dataImg).1.urls ∧
    dataImg.addUrl "http://example.com/" = dataImg ∧
    (dataImg.setBase "http://example.com/").base_url = some "http://example.com" := by
  have h := claim_C10_base_never_in_frontier dataImg "http://example.com" rfl
    (by decide) (by decide)
  refine ⟨h.1, h.2.1 "http://example.com/" (by decide), ?_⟩
  exact ((h.2.2 dataImg "http://example.com/").1).trans (by decide)

/-! ## C8: idempotence of the deduplicating insert and of link extraction -/

/-- The error component an outcome contributes (an insert or a skip raises
nothing). -/
def outcomeErr (o : Option (Except PyErr String)) : Option PyErr :=
  match o with
  | some (.error e) => some e
  | _ => none

theorem elemStep_none (base : String) (netloc : List Char) (attr : String)
    (d : Data) (e : Element) :
    elemStep base netloc attr (d, none) e = processElement base netloc d e attr := rfl

theorem processElement_known_mono (base : String) (netloc : List Char) (d : Data)
    (e : Element) (attr : String) {x : String} (h : x ∈ d.known_urls) :
    x ∈ (processElement base netloc d e attr).1.known_urls := by
  rw [processElement_char]
  cases elemOutcome base netloc e attr with
  | none => exact h
  | some exc =>
    cases exc with
    | error err => exact h
    | ok c => exact addUrl_known_mono d c h

theorem elemStep_known_mono (base : String) (netloc : List Char) (attr : String)
    (st : Data × Option PyErr) (e : Element) {x : String} (h : x ∈ st.1.known_urls) :
    x ∈ (elemStep base netloc attr st e).1.known_urls := by
  obtain ⟨d, err⟩ := st
  cases err with
  | none => exact processElement_known_mono base netloc d e attr h
  | some er => exact h

theorem foldl_elemStep_known_mono (base : String) (netloc : List Char) (attr : String)
    (els : List Element) (st : Data × Option PyErr) {x : String}
    (h : x ∈ st.1.known_urls) :
    x ∈ (els.foldl (elemStep base netloc attr) st).1.known_urls := by
  induction els generalizing st with
  | nil => exact h
  | cons e els ih =>
    rw [List.foldl_cons]
    exact ih _ (elemStep_known_mono base netloc attr st e h)

theorem tags_foldl_known_mono (base : String) (netloc : List Char) (soup : Html)
    (tas : List (String × String)) (st : Data × Option PyErr) {x : String}
    (h : x ∈ st.1.known_urls) :
    x ∈ (tas.foldl (tagStep base netloc soup) st).1.known_urls := by
  induction tas generalizing st with
  | nil => exact h
  | cons ta tas ih =>
    rw [List.foldl_cons]
    exact ih _ (foldl_elemStep_known_mono base netloc ta.2 (findAll ta.1 soup) st h)

theorem findUrlInHtml_known_mono (base : String) (netloc : List Char) (soup : Html)
    (st : Data × Option PyErr) {x : String} (h : x ∈ st.1.known_urls) :
    x ∈ (findUrlInHtml base netloc soup st).1.known_urls := by
  unfold findUrlInHtml
  exact tags_foldl_known_mono base netloc soup TAGS_AND_ATTRIBUTES st h

theorem urlLoopRev_known_mono (base : String) (netloc : List Char) (rs : List Response)
    (d : Data) {x : String} (h : x ∈ d.known_urls) :
    x ∈ (urlLoopRev base netloc rs d).1.known_urls := by
  induction rs generalizing d with
  | nil => exact h
  | cons r rs ih =>
    unfold urlLoopRev
    dsimp only
    have hm := findUrlInHtml_known_mono base netloc r.text
      ({ d with responses := rs.reverse }, none) (x := x) h
    cases ho : (findUrlInHtml base netloc r.text ({ d with responses := rs.reverse }, none)).2
      with
    | none => exact ih _ hm
    | some e => exact hm

theorem foldl_elemStep_err (base : String) (netloc : List Char) (attr : String)
    (els : List Element) (d : Data) (e : PyErr) :
    els.foldl (elemStep base netloc attr) (d, some e) = (d, some e) := by
  induction els with
  | nil => rfl
  | cons el els ih =>
    rw [List.foldl_cons]
    exact ih

theorem tags_foldl_err (base : String) (netloc : List Char) (soup : Html)
    (tas : List (String × String)) (d : Data) (e : PyErr) :
    tas.foldl (tagStep base netloc soup) (d, some e) = (d, some e) := by
  induction tas with
  | nil => rfl
  | cons ta tas ih =>
    rw [List.foldl_cons]
    rw [show tagStep base netloc soup (d, some e) ta = (d, some e) from
      foldl_elemStep_err base netloc ta.2 (findAll ta.1 soup) d e]
    exact ih

theorem processElement_absorb (base : String) (netloc : List Char) (d : Data)
    (e : Element) (attr : String)
    (h : ∀ c, elemOutcome base netloc e attr = some (.ok c) →
      pyRstripSlash c ∈ d.known_urls) :
    processElement base netloc d e attr =
      (d, outcomeErr (elemOutcome base netloc e attr)) := by
  rw [processElement_char]
  cases ho : elemOutcome base netloc e attr with
  | none => rfl
  | some exc =>
    cases exc with
    | error err => rfl
    | ok c =>
      dsimp only [outcomeErr]
      rw [addUrl_absorb d c (h c ho)]

theorem processElement_key_mem (base : String) (netloc : List Char) (d : Data)
    (e : Element) (attr : String) (c : String)
    (ho : elemOutcome base netloc e attr = some (.ok c)) :
    pyRstripSlash c ∈ (processElement base netloc d e attr).1.known_urls := by
  rw [processElement_char, ho]
  exact addUrl_key_mem d c

theorem foldl_elemStep_replay (base : String) (netloc : List Char) (attr : String)
    (els : List Element) (d₁ d₂ : Data)
    (hsub : ∀ x, x ∈ (els.foldl (elemStep base netloc attr) (d₁, none)).1.known_urls →
      x ∈ d₂.known_urls) :
    els.foldl (elemStep base netloc attr) (d₂, none) =
      (d₂, (els.foldl (elemStep base netloc attr) (d₁, none)).2) := by
  induction els generalizing d₁ d₂ with
  | nil => rfl
  | cons e els ih =>
    rw [List.foldl_cons, List.foldl_cons, elemStep_none, elemStep_none]
    rw [List.foldl_cons, elemStep_none] at hsub
    cases ho : elemOutcome base netloc e attr with
    | none =>
      have hstep : ∀ dd : Data, processElement base netloc dd e attr = (dd, none) := by
        intro dd
        rw [processElement_char, ho]
      rw [hstep d₁] at hsub ⊢
      rw [hstep d₂]
      exact ih d₁ d₂ hsub
    | some exc =>
      cases exc with
      | error err =>
        have hstep : ∀ dd : Data, processElement base netloc dd e attr = (dd, some err) := by
          intro dd
          rw [processElement_char, ho]
        rw [hstep d₁] at hsub ⊢
        rw [hstep d₂, foldl_elemStep_err, foldl_elemStep_err]
      | ok c =>
        have hstep1 : processElement base netloc d₁ e attr = (d₁.addUrl c, none) := by
          rw [processElement_char, ho]
        have hkey : pyRstripSlash c ∈ d₂.known_urls := by
          apply hsub
          rw [hstep1]
          exact foldl_elemStep_known_mono base netloc attr els _ (addUrl_key_mem d₁ c)
        have hstep2 : processElement base netloc d₂ e attr = (d₂, none) := by
          have habs := processElement_absorb base netloc d₂ e attr (by
            intro c' hc'
            rw [ho] at hc'
            cases hc'
            exact hkey)
          rw [habs, ho]
          rfl
        rw [hstep1] at hsub ⊢
        rw [hstep2]
        exact ih (d₁.addUrl c) d₂ hsub

theorem tags_foldl_replay (base : String) (netloc : List Char) (soup : Html)
    (tas : List (String × String)) (d₁ d₂ : Data)
    (hsub : ∀ x, x ∈ (tas.foldl (tagStep base netloc soup) (d₁, none)).1.known_urls →
      x ∈ d₂.known_urls) :
    tas.foldl (tagStep base netloc soup) (d₂, none) =
      (d₂, (tas.foldl (tagStep base netloc soup) (d₁, none)).2) := by
  induction tas generalizing d₁ d₂ with
  | nil => rfl
  | cons ta tas ih =>
    rw [List.foldl_cons, List.foldl_cons]
    rw [List.foldl_cons] at hsub
    have hsub1 : ∀ x,
        x ∈ ((findAll ta.1 soup).foldl (elemStep base netloc ta.2) (d₁, none)).1.known_urls →
        x ∈ d₂.known_urls := by
      intro x hx
      exact hsub x (tags_foldl_known_mono base netloc soup tas _ hx)
    have hstep2 : tagStep base netloc soup (d₂, none) ta =
        (d₂, (tagStep base netloc soup (d₁, none) ta).2) :=
      foldl_elemStep_replay base netloc ta.2 (findAll ta.1 soup) d₁ d₂ hsub1
    cases hX : tagStep base netloc soup (d₁, none) ta with
    | mk r₁ e₁ =>
      rw [hX] at hsub hstep2
      rw [hstep2]
      cases e₁ with
      | none => exact ih r₁ d₂ hsub
      | some e => rw [tags_foldl_err, tags_foldl_err]

theorem findUrlInHtml_replay (base : String) (netloc : List Char) (soup : Html)
    (d₁ d₂ : Data)
    (hsub : ∀ x, x ∈ (findUrlInHtml base netloc soup (d₁, none)).1.known_urls →
      x ∈ d₂.known_urls) :
    findUrlInHtml base netloc soup (d₂, none) =
      (d₂, (findUrlInHtml base netloc soup (d₁, none)).2) := by
  unfold findUrlInHtml at *
  exact tags_foldl_replay base netloc soup TAGS_AND_ATTRIBUTES d₁ d₂ hsub

theorem addUrl_base (d : Data) (u : String) : (d.addUrl u).base_url = d.base_url := by
  unfold Data.addUrl
  dsimp only
  split <;> rfl

theorem processElement_base (base : String) (netloc : List Char) (d : Data)
    (e : Element) (attr : String) :
    (processElement base netloc d e attr).1.base_url = d.base_url := by
  rw [processElement_char]
  cases elemOutcome base netloc e attr with
  | none => rfl
  | some exc =>
    cases exc with
    | error err => rfl
    | ok c => exact addUrl_base d c

theorem elemStep_base (base : String) (netloc : List Char) (attr : String)
    (st : Data × Option PyErr) (e : Element) :
    (elemStep base netloc attr st e).1.base_url = st.1.base_url := by
  obtain ⟨d, err⟩ := st
  cases err with
  | none => exact processElement_base base netloc d e attr
  | some er => rfl

theorem foldl_elemStep_base (base : String) (netloc : List Char) (attr : String)
    (els : List Element) (st : Data × Option PyErr) :
    (els.foldl (elemStep base netloc attr) st).1.base_url = st.1.base_url := by
  induction els generalizing st with
  | nil => rfl
  | cons e els ih =>
    rw [List.foldl_cons]
    exact (ih _).trans (elemStep_base base netloc attr st e)

theorem tags_foldl_base (base : String) (netloc : List Char) (soup : Html)
    (tas : List (String × String)) (st : Data × Option PyErr) :
    (tas.foldl (tagStep base netloc soup) st).1.base_url = st.1.base_url := by
  induction tas generalizing st with
  | nil => rfl
  | cons ta tas ih =>
    rw [List.foldl_cons]
    exact (ih _).trans (foldl_elemStep_base base netloc ta.2 (findAll ta.1 soup) st)

theorem findUrlInHtml_base (base : String) (netloc : List Char) (soup : Html)
    (st : Data × Option PyErr) :
    (findUrlInHtml base netloc soup st).1.base_url = st.1.base_url := by
  unfold findUrlInHtml
  exact tags_foldl_base base netloc soup TAGS_AND_ATTRIBUTES st

theorem urlLoopRev_base (base : String) (netloc : List Char) (rs : List Response)
    (d : Data) : (urlLoopRev base netloc rs d).1.base_url = d.base_url := by
  induction rs generalizing d with
  | nil => rfl
  | cons r rs ih =>
    unfold urlLoopRev
    dsimp only
    have hfb := findUrlInHtml_base base netloc r.text
      ({ d with responses := rs.reverse }, none)
    cases ho : (findUrlInHtml base netloc r.text ({ d with responses := rs.reverse }, none)).2
      with
    | none => exact (ih _).trans hfb
    | some e => exact hfb

theorem urlEnter_base (d : Data) : (urlEnter d).1.base_url = d.base_url := by
  unfold urlEnter
  cases hb : d.base_url with
  | none => exact hb
  | some base =>
    dsimp only
    cases hp : urlparseE base.data [] with
    | error e => exact hb
    | ok pb => exact (urlLoopRev_base base pb.netloc d.responses.reverse d).trans hb

theorem urlLoopRev_replay (base : String) (netloc : List Char) (rs : List Response)
    (d₁ d₂ : Data)
    (hsub : ∀ x, x ∈ (urlLoopRev base netloc rs d₁).1.known_urls → x ∈ d₂.known_urls) :
    (urlLoopRev base netloc rs d₂).1.urls = d₂.urls ∧
    (urlLoopRev base netloc rs d₂).1.known_urls = d₂.known_urls ∧
    (urlLoopRev base netloc rs d₂).2 = (urlLoopRev base netloc rs d₁).2 := by
  induction rs generalizing d₁ d₂ with
  | nil => exact ⟨rfl, rfl, rfl⟩
  | cons r rs ih =>
    unfold urlLoopRev
    dsimp only
    unfold urlLoopRev at hsub
    dsimp only at hsub
    cases hF : (findUrlInHtml base netloc r.text ({ d₁ with responses := rs.reverse }, none)).2
      with
    | some e =>
      rw [hF] at hsub
      dsimp only at hsub
      have hrep := findUrlInHtml_replay base netloc r.text
        { d₁ with responses := rs.reverse } { d₂ with responses := rs.reverse } hsub
      rw [hF] at hrep
      rw [hrep]
      exact ⟨rfl, rfl, rfl⟩
    | none =>
      rw [hF] at hsub
      dsimp only at hsub
      have hsubF : ∀ x,
          x ∈ (findUrlInHtml base netloc r.text
            ({ d₁ with responses := rs.reverse }, none)).1.known_urls →
          x ∈ ({ d₂ with responses := rs.reverse } : Data).known_urls := by
        intro x hx
        exact hsub x (urlLoopRev_known_mono base netloc rs _ hx)
      have hrep := findUrlInHtml_replay base netloc r.text
        { d₁ with responses := rs.reverse } { d₂ with responses := rs.reverse } hsubF
      rw [hF] at hrep
      rw [hrep]
      exact ih _ _ hsub

theorem urlEnter_replay (d d₂ : Data) (hb2 : d₂.base_url = d.base_url)
    (hr2 : d₂.responses = d.responses)
    (hsub : ∀ x, x ∈ (urlEnter d).1.known_urls → x ∈ d₂.known_urls) :
    (urlEnter d₂).1.urls = d₂.urls ∧ (urlEnter d₂).1.known_urls = d₂.known_urls ∧
    (urlEnter d₂).2 = (urlEnter d).2 := by
  unfold urlEnter
  rw [hb2, hr2]
  cases hbb : d.base_url with
  | none => exact ⟨rfl, rfl, rfl⟩
  | some base =>
    dsimp only
    cases hp : urlparseE base.data [] with
    | error e => exact ⟨rfl, rfl, rfl⟩
    | ok pb =>
      have hE : urlEnter d = urlLoopRev base pb.netloc d.responses.reverse d := by
        unfold urlEnter
        rw [hbb]
        dsimp only
        rw [hp]
      rw [hE] at hsub
      exact urlLoopRev_replay base pb.netloc d.responses.reverse d d₂ hsub

/-- C8 (confirmed): `add_url` is idempotent — inserting the same URL again leaves
both the frontier and the known set exactly as they were — and running the
link-extraction stage a second time over the same response set adds nothing to
the frontier or the known set. -/
theorem claim_C8_idempotent (d : Data) (u : String) :
    (d.addUrl u).addUrl u = d.addUrl u ∧
    (urlEnter { (urlEnter d).1 with responses := d.responses }).1.urls =
      (urlEnter d).1.urls ∧
    (urlEnter { (urlEnter d).1 with responses := d.responses }).1.known_urls =
      (urlEnter d).1.known_urls := by
  refine ⟨addUrl_absorb (d.addUrl u) u (addUrl_key_mem d u), ?_, ?_⟩
  · exact (urlEnter_replay d { (urlEnter d).1 with responses := d.responses }
      (urlEnter_base d) rfl (fun x hx => hx)).1
  · exact (urlEnter_replay d { (urlEnter d).1 with responses := d.responses }
      (urlEnter_base d) rfl (fun x hx => hx)).2.1

/-! ## C3: helper lemmas on lists and characters -/

theorem mem_of_mem_takeWhile {p : Char → Bool} {l : List Char} {a : Char}
    (h : a ∈ l.takeWhile p) : a ∈ l := by
  induction l with
  | nil => cases h
  | cons c t ih =>
    rw [List.takeWhile_cons] at h
    by_cases hp : p c = true
    · rw [if_pos hp] at h
      rcases List.mem_cons.1 h with rfl | h
      · exact List.mem_cons_self _ _
      · exact List.mem_cons_of_mem _ (ih h)
    · rw [if_neg hp] at h
      cases h

theorem prop_of_mem_takeWhile {p : Char → Bool} {l : List Char} {a : Char}
    (h : a ∈ l.takeWhile p) : p a = true := by
  induction l with
  | nil => cases h
  | cons c t ih =>
    rw [List.takeWhile_cons] at h
    by_cases hp : p c = true
    · rw [if_pos hp] at h
      rcases List.mem_cons.1 h with rfl | h
      · exact hp
      · exact ih h
    · rw [if_neg hp] at h
      cases h

theorem mem_of_mem_dropWhile {p : Char → Bool} {l : List Char} {a : Char}
    (h : a ∈ l.dropWhile p) : a ∈ l := by
  induction l with
  | nil => cases h
  | cons c t ih =>
    rw [List.dropWhile_cons] at h
    by_cases hp : p c = true
    · rw [if_pos hp] at h
      exact List.mem_cons_of_mem _ (ih h)
    · rw [if_neg hp] at h
      exact h

theorem takeWhile_append_of_all {p : Char → Bool} {a : List Char} (t : List Char)
    (h : ∀ c ∈ a, p c = true) : (a ++ t).takeWhile p = a ++ t.takeWhile p := by
  induction a with
  | nil => rfl
  | cons c a ih =>
    rw [List.cons_append, List.takeWhile_cons, if_pos (h c (List.mem_cons_self c a)),
      List.cons_append]
    rw [ih fun c' hc' => h c' (List.mem_cons_of_mem c hc')]

theorem dropWhile_append_of_all {p : Char → Bool} {a : List Char} (t : List Char)
    (h : ∀ c ∈ a, p c = true) : (a ++ t).dropWhile p = t.dropWhile p := by
  induction a with
  | nil => rfl
  | cons c a ih =>
    rw [List.cons_append, List.dropWhile_cons, if_pos (h c (List.mem_cons_self c a))]
    exact ih fun c' hc' => h c' (List.mem_cons_of_mem c hc')

theorem takeWhile_cons_neg {p : Char → Bool} {c : Char} (t : List Char)
    (h : p c = false) : (c :: t).takeWhile p = [] := by
  rw [List.takeWhile_cons, if_neg (by simp [h])]

theorem dropWhile_cons_neg {p : Char → Bool} {c : Char} (t : List Char)
    (h : p c = false) : (c :: t).dropWhile p = c :: t := by
  rw [List.dropWhile_cons, if_neg (by simp [h])]

theorem rstripSlashL_append {a : List Char} (b : List Char)
    (ha : a.getLast? ≠ some '/') :
    rstripSlashL (a ++ b) = a ++ rstripSlashL b := by
  unfold rstripSlashL
  rw [List.reverse_append]
  cases hb : b.reverse.dropWhile (· = '/') with
  | nil =>
    rw [List.dropWhile_append, hb]
    simp only [List.isEmpty_nil, if_pos]
    cases haa : a.reverse with
    | nil =>
      simp at haa
      simp [haa]
    | cons x xs =>
      have hx : x ≠ '/' := by
        intro hx
        apply ha
        rw [← List.head?_reverse, haa]
        simp [hx]
      rw [dropWhile_cons_neg xs (by simp [hx])]
      rw [← haa, List.reverse_reverse]
      simp
  | cons y ys =>
    rw [List.dropWhile_append, hb]
    simp only [List.isEmpty_cons, if_neg Bool.false_ne_true]
    rw [List.reverse_append]
    rw [List.reverse_reverse]

theorem dropWhile_is_suffix (p : Char → Bool) (l : List Char) :
    ∃ pre, pre ++ l.dropWhile p = l := by
  induction l with
  | nil => exact ⟨[], rfl⟩
  | cons c t ih =>
    rw [List.dropWhile_cons]
    by_cases hp : p c = true
    · rw [if_pos hp]
      obtain ⟨pre, hpre⟩ := ih
      exact ⟨c :: pre, by rw [List.cons_append, hpre]⟩
    · rw [if_neg hp]
      exact ⟨[], rfl⟩

theorem rstripSlashL_take (l : List Char) : ∃ k, rstripSlashL l = l.take k := by
  unfold rstripSlashL
  obtain ⟨pre, hpre⟩ := dropWhile_is_suffix (· = '/') l.reverse
  generalize hD : l.reverse.dropWhile (· = '/') = D at hpre ⊢
  refine ⟨D.length, ?_⟩
  have h2 : l = D.reverse ++ pre.reverse := by
    conv_lhs => rw [← l.reverse_reverse]
    rw [← hpre, List.reverse_append]
  rw [h2, ← List.length_reverse D, List.take_left]

theorem head_of_rstripSlashL {l res : List Char} (h : rstripSlashL l = res)
    (hne : res ≠ []) : res.head? = l.head? := by
  obtain ⟨k, hk⟩ := rstripSlashL_take l
  rw [h] at hk
  subst hk
  cases l with
  | nil => simp at hne
  | cons c t =>
    cases k with
    | zero => simp at hne
    | succ k => simp [List.take_succ_cons]

theorem schemeChar_props {c : Char} (h : isSchemeChar c = true) :
    c ≠ ':' ∧ c ≠ '/' ∧ c ≠ '?' ∧ c ≠ '#' ∧ isUnsafeUrlByte c = false ∧ 32 < c.toNat := by
  unfold isSchemeChar isAsciiAlpha isAsciiDigit at h
  simp only [Bool.or_eq_true, Bool.and_eq_true, decide_eq_true_eq, beq_iff_eq] at h
  rcases h with ((((h | h) | h) | h) | h) | h
  · exact ⟨fun hh => by subst hh; revert h; decide,
      fun hh => by subst hh; revert h; decide,
      fun hh => by subst hh; revert h; decide,
      fun hh => by subst hh; revert h; decide,
      by unfold isUnsafeUrlByte
         have h1 : c ≠ '\t' := fun hh => by subst hh; revert h; decide
         have h2 : c ≠ '\r' := fun hh => by subst hh; revert h; decide
         have h3 : c ≠ '\n' := fun hh => by subst hh; revert h; decide
         simp [h1, h2, h3],
      by omega⟩
  · exact ⟨fun hh => by subst hh; revert h; decide,
      fun hh => by subst hh; revert h; decide,
      fun hh => by subst hh; revert h; decide,
      fun hh => by subst hh; revert h; decide,
      by unfold isUnsafeUrlByte
         have h1 : c ≠ '\t' := fun hh => by subst hh; revert h; decide
         have h2 : c ≠ '\r' := fun hh => by subst hh; revert h; decide
         have h3 : c ≠ '\n' := fun hh => by subst hh; revert h; decide
         simp [h1, h2, h3],
      by omega⟩
  · exact ⟨fun hh => by subst hh; revert h; decide,
      fun hh => by subst hh; revert h; decide,
      fun hh => by subst hh; revert h; decide,
      fun hh => by subst hh; revert h; decide,
      by unfold isUnsafeUrlByte
         have h1 : c ≠ '\t' := fun hh => by subst hh; revert h; decide
         have h2 : c ≠ '\r' := fun hh => by subst hh; revert h; decide
         have h3 : c ≠ '\n' := fun hh => by subst hh; revert h; decide
         simp [h1, h2, h3],
      by omega⟩
  · subst h
    decide
  · subst h
    decide
  · subst h
    decide

theorem pyLower_isAsciiAlpha {c : Char} (h : isAsciiAlpha c = true) :
    isAsciiAlpha (pyLowerChar c) = true := by
  unfold pyLowerChar
  split <;> first | decide | exact h

theorem pyLower_isSchemeChar {c : Char} (h : isSchemeChar c = true) :
    isSchemeChar (pyLowerChar c) = true := by
  unfold pyLowerChar
  split <;> first | decide | exact h

theorem isAsciiAlpha_isSchemeChar {c : Char} (h : isAsciiAlpha c = true) :
    isSchemeChar c = true := by
  unfold isSchemeChar
  rw [h]
  rfl

theorem isAsciiAlpha_gt32 {c : Char} (h : isAsciiAlpha c = true) : 32 < c.toNat := by
  unfold isAsciiAlpha at h
  simp only [Bool.or_eq_true, Bool.and_eq_true, decide_eq_true_eq] at h
  rcases h with h | h <;> omega

theorem head_dropWhile_neg {p : Char → Bool} {l : List Char} {c : Char} {t : List Char}
    (h : l.dropWhile p = c :: t) : p c = false := by
  induction l with
  | nil => cases h
  | cons a l ih =>
    rw [List.dropWhile_cons] at h
    by_cases hp : p a = true
    · rw [if_pos hp] at h
      exact ih h
    · rw [if_neg hp] at h
      injection h with h1 _
      subst h1
      cases hb : p a
      · rfl
      · exact absurd hb hp

theorem urlsplit_tail_shape {scheme url2 default : List Char} {r : SplitResult}
    (hclean0 : ∀ c ∈ url2, isUnsafeUrlByte c = false)
    (hs : scheme = default ∨
      (scheme ≠ [] ∧ isAsciiAlpha (scheme.headD ' ') ∧ scheme.all isSchemeChar))
    (h : (if url2.take 2 = ['/', '/'] then
        let nl := splitnetloc url2
        if bracketsMismatched nl.1 then
          (.error (.valueError "Invalid IPv6 URL") : Except PyErr SplitResult)
        else if nl.1.contains '[' && nl.1.contains ']' &&
            !checkBracketedHostOk (bracketContent nl.1) then
          .error (.valueError "bracketed host")
        else
          let fr := splitFirst '#' nl.2
          let qu := splitFirst '?' fr.1
          .ok ⟨scheme, nl.1, qu.1, qu.2, fr.2⟩
      else
        let fr := splitFirst '#' url2
        let qu := splitFirst '?' fr.1
        .ok ⟨scheme, [], qu.1, qu.2, fr.2⟩) = .ok r) :
    (∀ c ∈ r.netloc, isNetlocDelim c = false ∧ isUnsafeUrlByte c = false) ∧
    bracketsMismatched r.netloc = false ∧
    (r.netloc ≠ [] → r.path = [] ∨ r.path.head? = some '/') ∧
    (∀ c ∈ r.path, c ≠ '#' ∧ c ≠ '?' ∧ isUnsafeUrlByte c = false) ∧
    (∀ c ∈ r.query, c ≠ '#' ∧ isUnsafeUrlByte c = false) ∧
    (r.scheme = default ∨
      (r.scheme ≠ [] ∧ isAsciiAlpha (r.scheme.headD ' ') ∧ r.scheme.all isSchemeChar)) := by
  by_cases h2 : url2.take 2 = ['/', '/']
  · rw [if_pos h2] at h
    dsimp only at h
    by_cases hbr : bracketsMismatched ((url2.drop 2).takeWhile (fun c => !isNetlocDelim c)) =
        true
    · rw [show splitnetloc url2 =
          ((url2.drop 2).takeWhile (fun c => !isNetlocDelim c),
           (url2.drop 2).dropWhile (fun c => !isNetlocDelim c)) from rfl] at h
      rw [if_pos hbr] at h
      cases h
    · rw [show splitnetloc url2 =
          ((url2.drop 2).takeWhile (fun c => !isNetlocDelim c),
           (url2.drop 2).dropWhile (fun c => !isNetlocDelim c)) from rfl] at h
      rw [if_neg hbr] at h
      rw [if_neg (by simp [checkBracketedHostOk])] at h
      injection h with h
      subst h
      dsimp only
      have hmemnl : ∀ c ∈ (url2.drop 2).takeWhile (fun c => !isNetlocDelim c), c ∈ url2 := by
        intro c hc
        exact List.drop_subset 2 url2 (mem_of_mem_takeWhile hc)
      have hmemnl2 : ∀ c ∈ (url2.drop 2).dropWhile (fun c => !isNetlocDelim c), c ∈ url2 := by
        intro c hc
        exact List.drop_subset 2 url2 (mem_of_mem_dropWhile hc)
      refine ⟨?_, ?_, ?_, ?_, ?_, hs⟩
      · intro c hc
        refine ⟨?_, hclean0 c (hmemnl c hc)⟩
        have := prop_of_mem_takeWhile hc
        simpa using this
      · cases hb : bracketsMismatched ((url2.drop 2).takeWhile (fun c => !isNetlocDelim c))
        · rfl
        · exact absurd hb hbr
      · intro _
        cases hnl2 : (url2.drop 2).dropWhile (fun c => !isNetlocDelim c) with
        | nil =>
          left
          rw [show splitFirst '#' [] = ([], []) from rfl]
          rfl
        | cons c0 t =>
          have hc0 : isNetlocDelim c0 = true := by
            have := head_dropWhile_neg hnl2
            simpa using this
          unfold isNetlocDelim at hc0
          simp only [Bool.or_eq_true, beq_iff_eq] at hc0
          rcases hc0 with (rfl | rfl) | rfl
          · right
            unfold splitFirst
            rw [List.takeWhile_cons, if_pos (by decide)]
            rw [List.takeWhile_cons, if_pos (by decide)]
            rfl
          · left
            unfold splitFirst
            rw [List.takeWhile_cons, if_pos (by decide)]
            rw [takeWhile_cons_neg _ (by decide)]
          · left
            unfold splitFirst
            rw [takeWhile_cons_neg _ (by decide)]
            rfl
      · intro c hc
        unfold splitFirst at hc
        dsimp only at hc
        have hq : decide (c ≠ '?') = true := prop_of_mem_takeWhile hc
        have hc' := mem_of_mem_takeWhile hc
        have hh : decide (c ≠ '#') = true := prop_of_mem_takeWhile hc'
        have hc'' := mem_of_mem_takeWhile hc'
        refine ⟨by simpa using hh, by simpa using hq, hclean0 c (hmemnl2 c hc'')⟩
      · intro c hc
        unfold splitFirst at hc
        dsimp only at hc
        have hc1 := mem_of_mem_dropWhile (List.drop_subset 1 _ hc)
        have hh : decide (c ≠ '#') = true := prop_of_mem_takeWhile hc1
        have hc2 := mem_of_mem_takeWhile hc1
        refine ⟨by simpa using hh, hclean0 c (hmemnl2 c hc2)⟩
  · rw [if_neg h2] at h
    dsimp only at h
    injection h with h
    subst h
    dsimp only
    refine ⟨(by intro c hc; cases hc), (by decide),
      (by intro hne; exact absurd rfl hne), ?_, ?_, hs⟩
    · intro c hc
      unfold splitFirst at hc
      dsimp only at hc
      have hq : decide (c ≠ '?') = true := prop_of_mem_takeWhile hc
      have hc' := mem_of_mem_takeWhile hc
      have hh : decide (c ≠ '#') = true := prop_of_mem_takeWhile hc'
      have hc'' := mem_of_mem_takeWhile hc'
      refine ⟨by simpa using hh, by simpa using hq, hclean0 c hc''⟩
    · intro c hc
      unfold splitFirst at hc
      dsimp only at hc
      have hc1 := mem_of_mem_dropWhile (List.drop_subset 1 _ hc)
      have hh : decide (c ≠ '#') = true := prop_of_mem_takeWhile hc1
      have hc2 := mem_of_mem_takeWhile hc1
      refine ⟨by simpa using hh, hclean0 c hc2⟩

theorem splitScheme_some {l s rest : List Char} (h : splitScheme l = some (s, rest)) :
    s ≠ [] ∧ isAsciiAlpha (s.headD ' ') = true ∧ s.all isSchemeChar = true ∧
    (∀ c ∈ rest, c ∈ l) := by
  unfold splitScheme at h
  dsimp only at h
  split at h
  · rename_i hcond
    injection h with h
    injection h with h1 h2
    obtain ⟨hlen, hne, hhead, hall⟩ := hcond
    subst h1
    subst h2
    refine ⟨?_, ?_, ?_, ?_⟩
    · intro hmap
      exact hne (List.map_eq_nil_iff.1 hmap)
    · cases hpre : l.takeWhile (· ≠ ':') with
      | nil => exact absurd hpre hne
      | cons c t =>
        rw [hpre] at hhead
        dsimp only [List.map_cons, List.headD_cons] at hhead ⊢
        exact pyLower_isAsciiAlpha hhead
    · rw [List.all_map]
      rw [List.all_eq_true] at hall ⊢
      intro c hc
      exact pyLower_isSchemeChar (hall c hc)
    · intro c hc
      exact mem_of_mem_dropWhile (List.drop_subset 1 _ hc)
  · cases h

theorem urlsplitE_shape {url default : List Char} {r : SplitResult}
    (h : urlsplitE url default = .ok r) :
    (∀ c ∈ r.netloc, isNetlocDelim c = false ∧ isUnsafeUrlByte c = false) ∧
    bracketsMismatched r.netloc = false ∧
    (r.netloc ≠ [] → r.path = [] ∨ r.path.head? = some '/') ∧
    (∀ c ∈ r.path, c ≠ '#' ∧ c ≠ '?' ∧ isUnsafeUrlByte c = false) ∧
    (∀ c ∈ r.query, c ≠ '#' ∧ isUnsafeUrlByte c = false) ∧
    (r.scheme = default ∨
      (r.scheme ≠ [] ∧ isAsciiAlpha (r.scheme.headD ' ') = true ∧
        r.scheme.all isSchemeChar = true)) := by
  unfold urlsplitE at h
  dsimp only at h
  generalize hu : (url.dropWhile isC0OrSpace).filter (fun c => !isUnsafeUrlByte c) = url1 at h
  have hclean01 : ∀ c ∈ url1, isUnsafeUrlByte c = false := by
    intro c hc
    rw [← hu] at hc
    have := List.of_mem_filter hc
    simpa using this
  cases hsp : splitScheme url1 with
  | none =>
    rw [hsp] at h
    dsimp only at h
    exact urlsplit_tail_shape hclean01 (.inl rfl) h
  | some pr =>
    obtain ⟨s0, rest0⟩ := pr
    rw [hsp] at h
    dsimp only at h
    obtain ⟨hne, hhead, hall, hsub⟩ := splitScheme_some hsp
    exact urlsplit_tail_shape (fun c hc => hclean01 c (hsub c hc))
      (.inr ⟨hne, hhead, hall⟩) h

/-- The path with its params re-attached, as `geturl`/`urlunparse` rebuilds it. -/
def paramsRejoin (p : ParseResult) : List Char :=
  if p.params ≠ [] then p.path ++ ';' :: p.params else p.path

theorem takeWhile_length_lt {l : List Char} {c : Char} (hc : c ∈ l) :
    (l.takeWhile (· ≠ c)).length < l.length := by
  induction l with
  | nil => cases hc
  | cons a t ih =>
    rw [List.takeWhile_cons]
    by_cases ha : a = c
    · rw [if_neg (by simp [ha])]
      simp
    · rw [if_pos (by simp [ha])]
      have hct : c ∈ t := by
        rcases List.mem_cons.1 hc with h | h
        · exact absurd h.symm ha
        · exact h
      simpa using ih hct

theorem head_take_pos {l : List Char} {k : Nat} (hk : 0 < k) :
    (l.take k).head? = l.head? := by
  cases l with
  | nil => simp
  | cons c t =>
    cases k with
    | zero => omega
    | succ k => simp [List.take_succ_cons]

theorem mem_reverse_take {p : List Char} {c : Char}
    (h : c ∈ (p.reverse.takeWhile (· ≠ '/')).reverse) : c ∈ p := by
  rw [List.mem_reverse] at h
  have := mem_of_mem_takeWhile h
  rw [List.mem_reverse] at this
  exact this

theorem splitparams_sub {p a b : List Char} (h : splitparams p = (a, b)) :
    (∀ c ∈ a, c ∈ p) ∧ (∀ c ∈ b, c ∈ p) := by
  unfold splitparams at h
  by_cases h1 : p.contains '/' = true
  · rw [if_pos h1] at h
    dsimp only at h
    by_cases h2 : ((p.reverse.takeWhile (· ≠ '/')).reverse).contains ';' = true
    · rw [if_pos h2] at h
      injection h with ha hb
      subst ha
      subst hb
      constructor
      · intro c hc
        rcases List.mem_append.1 hc with hc | hc
        · exact List.take_subset _ _ hc
        · exact mem_reverse_take (mem_of_mem_takeWhile hc)
      · intro c hc
        exact mem_reverse_take (mem_of_mem_dropWhile (List.drop_subset 1 _ hc))
    · rw [if_neg h2] at h
      injection h with ha hb
      subst ha
      subst hb
      exact ⟨fun c hc => hc, fun c hc => by cases hc⟩
  · rw [if_neg h1] at h
    injection h with ha hb
    subst ha
    subst hb
    constructor
    · intro c hc
      exact mem_of_mem_takeWhile hc
    · intro c hc
      exact mem_of_mem_dropWhile (List.drop_subset 1 _ hc)

theorem splitparams_head {p a b : List Char} (h : splitparams p = (a, b))
    (hh : p.head? = some '/') : a.head? = some '/' := by
  have hmem : '/' ∈ p := by
    cases p with
    | nil => cases hh
    | cons c t =>
      simp only [List.head?_cons, Option.some_inj] at hh
      exact hh ▸ List.mem_cons_self _ _
  have h1 : p.contains '/' = true := List.elem_eq_true_of_mem hmem
  unfold splitparams at h
  rw [if_pos h1] at h
  dsimp only at h
  have hlen : ((p.reverse.takeWhile (· ≠ '/')).reverse).length < p.length := by
    rw [List.length_reverse]
    have : '/' ∈ p.reverse := List.mem_reverse.2 hmem
    simpa using takeWhile_length_lt this
  have hbefore :
      (p.take (p.length - ((p.reverse.takeWhile (· ≠ '/')).reverse).length)).head? =
        some '/' := by
    rw [head_take_pos (by omega)]
    exact hh
  by_cases h2 : ((p.reverse.takeWhile (· ≠ '/')).reverse).contains ';' = true
  · rw [if_pos h2] at h
    injection h with ha _
    subst ha
    cases hb : p.take (p.length - ((p.reverse.takeWhile (· ≠ '/')).reverse).length) with
    | nil =>
      rw [hb] at hbefore
      cases hbefore
    | cons x xs =>
      rw [hb] at hbefore
      simp only [List.head?_cons, Option.some_inj] at hbefore
      subst hbefore
      rfl
  · rw [if_neg h2] at h
    injection h with ha _
    subst ha
    exact hh

theorem urlparseE_shape {url default : List Char} {r : ParseResult}
    (h : urlparseE url default = .ok r) :
    (∀ c ∈ r.netloc, isNetlocDelim c = false ∧ isUnsafeUrlByte c = false) ∧
    bracketsMismatched r.netloc = false ∧
    (r.netloc ≠ [] → paramsRejoin r = [] ∨ (paramsRejoin r).head? = some '/') ∧
    (∀ c ∈ paramsRejoin r, c ≠ '#' ∧ c ≠ '?' ∧ isUnsafeUrlByte c = false) ∧
    (∀ c ∈ r.query, c ≠ '#' ∧ isUnsafeUrlByte c = false) ∧
    (r.scheme = default ∨
      (r.scheme ≠ [] ∧ isAsciiAlpha (r.scheme.headD ' ') = true ∧
        r.scheme.all isSchemeChar = true)) := by
  unfold urlparseE at h
  cases hs : urlsplitE url default with
  | error e =>
    rw [hs] at h
    cases h
  | ok rs =>
    rw [hs] at h
    dsimp only [Except.map] at h
    obtain ⟨hnl, hbr, hhead, hpath, hquery, hscheme⟩ := urlsplitE_shape hs
    split at h
    · rename_i hguard
      injection h with h
      subst h
      dsimp only
      cases hsp : splitparams rs.path with
      | mk a b =>
        obtain ⟨hsa, hsb⟩ := splitparams_sub hsp
        have hrej : ∀ c ∈ (if b ≠ [] then a ++ ';' :: b else a),
            c ≠ '#' ∧ c ≠ '?' ∧ isUnsafeUrlByte c = false := by
          intro c hc
          by_cases hb : b ≠ []
          · rw [if_pos hb] at hc
            rcases List.mem_append.1 hc with hc | hc
            · exact hpath c (hsa c hc)
            · rcases List.mem_cons.1 hc with rfl | hc
              · exact ⟨by decide, by decide, by decide⟩
              · exact hpath c (hsb c hc)
          · rw [if_neg hb] at hc
            exact hpath c (hsa c hc)
        refine ⟨hnl, hbr, ?_, ?_, hquery, hscheme⟩
        · intro hne
          have hpne : rs.path ≠ [] := by
            intro hp0
            rw [hp0] at hguard
            exact absurd hguard.2 (by decide)
          rcases hhead hne with hp0 | hp0
          · exact absurd hp0 hpne
          · right
            have ha := splitparams_head hsp hp0
            unfold paramsRejoin
            dsimp only
            by_cases hb : b ≠ []
            · rw [if_pos hb]
              cases ha' : a with
              | nil =>
                rw [ha'] at ha
                cases ha
              | cons x xs =>
                rw [ha'] at ha
                simp only [List.head?_cons, Option.some_inj] at ha
                subst ha
                rfl
            · rw [if_neg hb]
              exact ha
        · unfold paramsRejoin
          dsimp only
          exact hrej
    · injection h with h
      subst h
      dsimp only
      have hrej : paramsRejoin
          ⟨rs.scheme, rs.netloc, rs.path, [], rs.query, rs.fragment⟩ = rs.path := by
        unfold paramsRejoin
        simp
      rw [hrej]
      exact ⟨hnl, hbr, hhead, hpath, hquery, hscheme⟩

/-- The `scheme:` prefix that `urlunsplit` prepends when a scheme is present. -/
def optScheme (s : List Char) : List Char := if s ≠ [] then s ++ [':'] else []

/-- The `?query` suffix that `urlunsplit` appends when a query is present. -/
def optQuery (q : List Char) : List Char := if q ≠ [] then '?' :: q else []

theorem urlunsplit_decompose {s n path' q : List Char} (hn : n ≠ [])
    (hp : path' = [] ∨ path'.head? = some '/') :
    urlunsplitL s n path' q [] =
      optScheme s ++ '/' :: '/' :: (n ++ (path' ++ optQuery q)) := by
  unfold urlunsplitL optScheme optQuery
  dsimp only
  rw [if_pos (Or.inl hn)]
  rw [if_neg (show ¬(path' ≠ [] ∧ path'.head? ≠ some '/') from fun h => hp.elim h.1 h.2)]
  by_cases hs : s = [] <;> by_cases hq : q = [] <;>
    simp [hs, hq, List.append_assoc]

theorem urlunsplitL_noHash {s n path' q : List Char}
    (hs : '#' ∉ s) (hn : '#' ∉ n) (hp : '#' ∉ path') (hq : '#' ∉ q) :
    '#' ∉ urlunsplitL s n path' q [] := by
  unfold urlunsplitL
  dsimp only
  repeat' split
  all_goals simp_all [List.mem_append, List.mem_cons]

theorem reparse_core {s n T : List Char}
    (hs : s = [] ∨ (s ≠ [] ∧ isAsciiAlpha (s.headD ' ') = true ∧ s.all isSchemeChar = true))
    (_hn : n ≠ [])
    (hnd : ∀ c ∈ n, isNetlocDelim c = false ∧ isUnsafeUrlByte c = false)
    (hbr : bracketsMismatched n = false)
    (hThead : T = [] ∨ T.head? = some '/' ∨ T.head? = some '?')
    (hTclean : ∀ c ∈ T, isUnsafeUrlByte c = false) :
    ∃ res : SplitResult,
      urlsplitE (optScheme s ++ '/' :: '/' :: (n ++ T)) [] = .ok res ∧ res.netloc = n := by
  have hnOK : ∀ c ∈ n, (!isNetlocDelim c) = true := by
    intro c hc
    rw [(hnd c hc).1]
    rfl
  have hTsplit : T.takeWhile (fun c => !isNetlocDelim c) = [] ∧
      T.dropWhile (fun c => !isNetlocDelim c) = T := by
    rcases hThead with rfl | hh | hh
    · exact ⟨rfl, rfl⟩
    · cases T with
      | nil => cases hh
      | cons a t =>
        simp only [List.head?_cons, Option.some_inj] at hh
        subst hh
        exact ⟨takeWhile_cons_neg _ (by decide), dropWhile_cons_neg _ (by decide)⟩
    · cases T with
      | nil => cases hh
      | cons a t =>
        simp only [List.head?_cons, Option.some_inj] at hh
        subst hh
        exact ⟨takeWhile_cons_neg _ (by decide), dropWhile_cons_neg _ (by decide)⟩
  have hnl1 : (n ++ T).takeWhile (fun c => !isNetlocDelim c) = n := by
    rw [takeWhile_append_of_all _ hnOK, hTsplit.1, List.append_nil]
  have hnl2 : (n ++ T).dropWhile (fun c => !isNetlocDelim c) = T := by
    rw [dropWhile_append_of_all _ hnOK, hTsplit.2]
  have hntUnsafe : ∀ c ∈ n ++ T, isUnsafeUrlByte c = false := by
    intro c hc
    rcases List.mem_append.1 hc with hc | hc
    · exact (hnd c hc).2
    · exact hTclean c hc
  rcases hs with rfl | ⟨hsne, hshead, hsall⟩
  · rw [show optScheme [] = [] from by simp [optScheme], List.nil_append]
    have hdrop : ('/' :: '/' :: (n ++ T)).dropWhile isC0OrSpace = '/' :: '/' :: (n ++ T) :=
      dropWhile_cons_neg _ (by decide)
    have hfilter : ('/' :: '/' :: (n ++ T)).filter (fun c => !isUnsafeUrlByte c) =
        '/' :: '/' :: (n ++ T) := by
      refine List.filter_eq_self.mpr ?_
      intro a ha
      rcases List.mem_cons.1 ha with rfl | ha
      · decide
      rcases List.mem_cons.1 ha with rfl | ha
      · decide
      rw [hntUnsafe a ha]
      rfl
    have hsp : splitScheme ('/' :: '/' :: (n ++ T)) = none := by
      unfold splitScheme
      dsimp only
      have hpre : ('/' :: '/' :: (n ++ T)).takeWhile (· ≠ ':') =
          '/' :: (('/' :: (n ++ T)).takeWhile (· ≠ ':')) := by
        rw [List.takeWhile_cons, if_pos (by decide)]
      rw [hpre]
      rw [if_neg (by
        rintro ⟨-, -, halpha, -⟩
        simp only [List.headD_cons] at halpha
        exact absurd halpha (by decide))]
    unfold urlsplitE
    dsimp only
    rw [hdrop, hfilter, hsp]
    dsimp only
    rw [if_pos (show ('/' :: '/' :: (n ++ T)).take 2 = ['/', '/'] from rfl)]
    rw [show splitnetloc ('/' :: '/' :: (n ++ T)) = (n, T) from by
      unfold splitnetloc
      rw [show ('/' :: '/' :: (n ++ T)).drop 2 = n ++ T from rfl, hnl1, hnl2]]
    dsimp only
    rw [if_neg (show ¬bracketsMismatched n = true from by rw [hbr]; exact Bool.false_ne_true)]
    rw [if_neg (show ¬(n.contains '[' && n.contains ']' &&
        !checkBracketedHostOk (bracketContent n)) = true from by simp [checkBracketedHostOk])]
    exact ⟨_, rfl, rfl⟩
  · cases s with
    | nil => exact absurd rfl hsne
    | cons c s' =>
      rw [show optScheme (c :: s') = (c :: s') ++ [':'] from by simp [optScheme]]
      rw [show ((c :: s') ++ [':']) ++ '/' :: '/' :: (n ++ T) =
        c :: (s' ++ ':' :: '/' :: '/' :: (n ++ T)) from by simp]
      have hc0 : isC0OrSpace c = false := by
        have h32 : 32 < c.toNat := isAsciiAlpha_gt32 (by simpa using hshead)
        simp [isC0OrSpace]
        omega
      have hall' : ∀ x ∈ c :: s', decide (x ≠ ':') = true := by
        intro x hx
        have hsc : isSchemeChar x = true := by
          rw [List.all_eq_true] at hsall
          exact hsall x hx
        simp [(schemeChar_props hsc).1]
      have hdrop : (c :: (s' ++ ':' :: '/' :: '/' :: (n ++ T))).dropWhile isC0OrSpace =
          c :: (s' ++ ':' :: '/' :: '/' :: (n ++ T)) :=
        dropWhile_cons_neg _ hc0
      have hfilter : (c :: (s' ++ ':' :: '/' :: '/' :: (n ++ T))).filter
          (fun x => !isUnsafeUrlByte x) = c :: (s' ++ ':' :: '/' :: '/' :: (n ++ T)) := by
        refine List.filter_eq_self.mpr ?_
        intro a ha
        have hmem : a ∈ (c :: s') ++ ':' :: '/' :: '/' :: (n ++ T) := by
          simpa using ha
        rcases List.mem_append.1 hmem with ha' | ha'
        · have hsc : isSchemeChar a = true := by
            rw [List.all_eq_true] at hsall
            exact hsall a ha'
          rw [(schemeChar_props hsc).2.2.2.2.1]
          rfl
        rcases List.mem_cons.1 ha' with rfl | ha'
        · decide
        rcases List.mem_cons.1 ha' with rfl | ha'
        · decide
        rcases List.mem_cons.1 ha' with rfl | ha'
        · decide
        · rw [hntUnsafe a ha']
          rfl
      have hsp : splitScheme (c :: (s' ++ ':' :: '/' :: '/' :: (n ++ T))) =
          some ((c :: s').map pyLowerChar, '/' :: '/' :: (n ++ T)) := by
        have hpre : (c :: (s' ++ ':' :: '/' :: '/' :: (n ++ T))).takeWhile (· ≠ ':') =
            c :: s' := by
          rw [show c :: (s' ++ ':' :: '/' :: '/' :: (n ++ T)) =
            (c :: s') ++ ':' :: '/' :: '/' :: (n ++ T) from by simp]
          rw [takeWhile_append_of_all _ hall', takeWhile_cons_neg _ (by decide),
            List.append_nil]
        have hdr : ((c :: (s' ++ ':' :: '/' :: '/' :: (n ++ T))).dropWhile (· ≠ ':')).drop 1 =
            '/' :: '/' :: (n ++ T) := by
          rw [show c :: (s' ++ ':' :: '/' :: '/' :: (n ++ T)) =
            (c :: s') ++ ':' :: '/' :: '/' :: (n ++ T) from by simp]
          rw [dropWhile_append_of_all _ hall', dropWhile_cons_neg _ (by decide)]
          rfl
        unfold splitScheme
        dsimp only
        rw [hpre, hdr]
        rw [if_pos ⟨by simp, List.cons_ne_nil c s', by simpa using hshead, hsall⟩]
      unfold urlsplitE
      dsimp only
      rw [hdrop, hfilter, hsp]
      dsimp only
      rw [if_pos (show ('/' :: '/' :: (n ++ T)).take 2 = ['/', '/'] from rfl)]
      rw [show splitnetloc ('/' :: '/' :: (n ++ T)) = (n, T) from by
        unfold splitnetloc
        rw [show ('/' :: '/' :: (n ++ T)).drop 2 = n ++ T from rfl, hnl1, hnl2]]
      dsimp only
      rw [if_neg (show ¬bracketsMismatched n = true from by rw [hbr]; exact Bool.false_ne_true)]
      rw [if_neg (show ¬(n.contains '[' && n.contains ']' &&
          !checkBracketedHostOk (bracketContent n)) = true from by simp [checkBracketedHostOk])]
      exact ⟨_, rfl, rfl⟩

theorem reparse_netloc {s n path' q : List Char}
    (hs : s = [] ∨ (s ≠ [] ∧ isAsciiAlpha (s.headD ' ') = true ∧ s.all isSchemeChar = true))
    (hn : n ≠ [])
    (hnd : ∀ c ∈ n, isNetlocDelim c = false ∧ isUnsafeUrlByte c = false)
    (hbr : bracketsMismatched n = false)
    (hp : path' = [] ∨ path'.head? = some '/')
    (hpc : ∀ c ∈ path', c ≠ '#' ∧ c ≠ '?' ∧ isUnsafeUrlByte c = false)
    (hq : ∀ c ∈ q, c ≠ '#' ∧ isUnsafeUrlByte c = false) :
    ∃ res : SplitResult,
      urlsplitE (rstripSlashL (urlunsplitL s n path' q [])) [] = .ok res ∧
      res.netloc = n := by
  rw [urlunsplit_decompose hn hp]
  rw [show optScheme s ++ '/' :: '/' :: (n ++ (path' ++ optQuery q)) =
    (optScheme s ++ '/' :: '/' :: n) ++ (path' ++ optQuery q) from by simp]
  have hlastA : (optScheme s ++ '/' :: '/' :: n).getLast? ≠ some '/' := by
    rw [show optScheme s ++ '/' :: '/' :: n = (optScheme s ++ ['/', '/']) ++ n from by simp]
    rw [List.getLast?_append_of_ne_nil _ hn]
    intro hlast
    have hcmem : '/' ∈ n := List.mem_of_mem_getLast? hlast
    exact absurd (hnd '/' hcmem).1 (by decide)
  rw [rstripSlashL_append _ hlastA]
  have hBsub : ∀ c ∈ rstripSlashL (path' ++ optQuery q), c ∈ path' ++ optQuery q := by
    obtain ⟨k, hk⟩ := rstripSlashL_take (path' ++ optQuery q)
    rw [hk]
    intro c hc
    exact List.take_subset _ _ hc
  have hThead : rstripSlashL (path' ++ optQuery q) = [] ∨
      (rstripSlashL (path' ++ optQuery q)).head? = some '/' ∨
      (rstripSlashL (path' ++ optQuery q)).head? = some '?' := by
    by_cases hTn : rstripSlashL (path' ++ optQuery q) = []
    · exact Or.inl hTn
    · right
      rw [head_of_rstripSlashL rfl hTn]
      rcases hp with rfl | hph
      · rw [List.nil_append]
        by_cases hqn : q = []
        · subst hqn
          rw [show optQuery [] = [] from by simp [optQuery]] at hTn
          exact absurd rfl hTn
        · rw [show optQuery q = '?' :: q from by simp [optQuery, hqn]]
          exact Or.inr rfl
      · cases path' with
        | nil => cases hph
        | cons a t =>
          simp only [List.head?_cons, Option.some_inj] at hph
          subst hph
          exact Or.inl rfl
  have hTclean : ∀ c ∈ rstripSlashL (path' ++ optQuery q), isUnsafeUrlByte c = false := by
    intro c hc
    rcases List.mem_append.1 (hBsub c hc) with hc' | hc'
    · exact (hpc c hc').2.2
    · by_cases hqn : q = []
      · subst hqn
        rw [show optQuery [] = [] from by simp [optQuery]] at hc'
        cases hc'
      · rw [show optQuery q = '?' :: q from by simp [optQuery, hqn]] at hc'
        rcases List.mem_cons.1 hc' with rfl | hc'
        · decide
        · exact (hq c hc').2
  rw [show (optScheme s ++ '/' :: '/' :: n) ++ rstripSlashL (path' ++ optQuery q) =
    optScheme s ++ '/' :: '/' :: (n ++ rstripSlashL (path' ++ optQuery q)) from by simp]
  exact reparse_core hs hn hnd hbr hThead hTclean

/-! ## C3: the frontier discipline of link extraction -/

/-- The per-URL property link extraction establishes for every frontier entry:
the stored string contains no `#` at all, and it is the trailing-slash-stripped
serialization of a fragment-cleared parse whose netloc is either empty (e.g. a
`mailto:` link) or exactly the target netloc; in the non-empty case re-parsing
the stored string recovers the target netloc. -/
def InvC3 (tn : List Char) (u : String) : Prop :=
  '#' ∉ u.data ∧
  ∃ p : ParseResult,
    (p.netloc = [] ∨ p.netloc = tn) ∧
    u.data = rstripSlashL (urlunparseL { p with fragment := [] }) ∧
    (p.netloc ≠ [] → ∃ r : SplitResult, urlsplitE u.data [] = .ok r ∧ r.netloc = tn)

theorem elemOutcome_inv {base : String} {tn : List Char} {e : Element} {attr : String}
    {c : String} (ho : elemOutcome base tn e attr = some (.ok c)) :
    InvC3 tn (pyRstripSlash c) := by
  unfold elemOutcome at ho
  cases hg : elemGet e attr with
  | none => rw [hg] at ho; cases ho
  | some valor =>
    rw [hg] at ho
    dsimp only at ho
    by_cases hv : valor = ""
    · rw [if_pos hv] at ho
      cases ho
    · rw [if_neg hv] at ho
      cases hj : urljoinE base.data valor.data with
      | error err => rw [hj] at ho; cases ho
      | ok absolut =>
        rw [hj] at ho
        dsimp only at ho
        cases hup : urlparseE absolut [] with
        | error err => rw [hup] at ho; cases ho
        | ok parsed =>
          rw [hup] at ho
          dsimp only at ho
          by_cases hn : parsed.netloc ≠ [] ∧ parsed.netloc ≠ tn
          · rw [if_pos hn] at ho
            cases ho
          · rw [if_neg hn] at ho
            injection ho with ho
            injection ho with ho
            subst ho
            have hdisj : parsed.netloc = [] ∨ parsed.netloc = tn := by
              by_cases hne : parsed.netloc = []
              · exact .inl hne
              · right
                by_contra hnt
                exact hn ⟨hne, hnt⟩
            obtain ⟨hnl, hbr, hhead, hpath, hquery, hscheme⟩ := urlparseE_shape hup
            have hnoH : '#' ∉ urlunsplitL parsed.scheme parsed.netloc
                (paramsRejoin parsed) parsed.query [] := by
              apply urlunsplitL_noHash
              · rcases hscheme with h0 | ⟨hne0, hhd0, hall0⟩
                · rw [h0]
                  exact List.not_mem_nil _
                · intro hmem
                  rw [List.all_eq_true] at hall0
                  exact (schemeChar_props (hall0 _ hmem)).2.2.2.1 rfl
              · intro hmem
                exact absurd (hnl _ hmem).1 (by decide)
              · intro hmem
                exact (hpath _ hmem).1 rfl
              · intro hmem
                exact (hquery _ hmem).1 rfl
            have hkey : (pyRstripSlash
                (⟨urlunparseL { parsed with fragment := [] }⟩ : String)).data =
                rstripSlashL (urlunsplitL parsed.scheme parsed.netloc
                  (paramsRejoin parsed) parsed.query []) := rfl
            unfold InvC3
            rw [hkey]
            refine ⟨?_, { parsed with fragment := [] }, hdisj, rfl, ?_⟩
            · obtain ⟨k, hk⟩ := rstripSlashL_take (urlunsplitL parsed.scheme
                parsed.netloc (paramsRejoin parsed) parsed.query [])
              rw [hk]
              intro hmem
              exact hnoH (List.take_subset _ _ hmem)
            · intro hne
              have htn : parsed.netloc = tn := by
                rcases hdisj with h | h
                · exact absurd h hne
                · exact h
              obtain ⟨r, hr, hrn⟩ :=
                reparse_netloc hscheme hne hnl hbr (hhead hne) hpath hquery
              exact ⟨r, hr, by rw [hrn, htn]⟩

theorem addUrl_inv {tn : List Char} {d : Data} {c : String}
    (hall : ∀ u ∈ d.urls, InvC3 tn u) (hnew : InvC3 tn (pyRstripSlash c)) :
    ∀ u ∈ (d.addUrl c).urls, InvC3 tn u := by
  unfold Data.addUrl
  dsimp only
  by_cases hc : pyRstripSlash c ∈ d.known_urls
  · rw [if_pos hc]
    exact hall
  · rw [if_neg hc]
    intro u hu
    rcases mem_setAdd.1 hu with h | h
    · exact hall u h
    · subst h
      exact hnew

theorem processElement_inv (base : String) (tn : List Char) (d : Data) (e : Element)
    (attr : String) (hall : ∀ u ∈ d.urls, InvC3 tn u) :
    ∀ u ∈ (processElement base tn d e attr).1.urls, InvC3 tn u := by
  rw [processElement_char]
  cases ho : elemOutcome base tn e attr with
  | none => exact hall
  | some exc =>
    cases exc with
    | error err => exact hall
    | ok c =>
      dsimp only
      exact addUrl_inv hall (elemOutcome_inv ho)

theorem elemStep_inv (base : String) (tn : List Char) (attr : String)
    (st : Data × Option PyErr) (e : Element)
    (hall : ∀ u ∈ st.1.urls, InvC3 tn u) :
    ∀ u ∈ (elemStep base tn attr st e).1.urls, InvC3 tn u := by
  obtain ⟨d, err⟩ := st
  cases err with
  | none => exact processElement_inv base tn d e attr hall
  | some er => exact hall

theorem foldl_elemStep_inv (base : String) (tn : List Char) (attr : String)
    (els : List Element) (st : Data × Option PyErr)
    (hall : ∀ u ∈ st.1.urls, InvC3 tn u) :
    ∀ u ∈ (els.foldl (elemStep base tn attr) st).1.urls, InvC3 tn u := by
  induction els generalizing st with
  | nil => exact hall
  | cons e els ih =>
    rw [List.foldl_cons]
    exact ih _ (elemStep_inv base tn attr st e hall)

theorem findUrlInHtml_inv (base : String) (tn : List Char) (soup : Html)
    (st : Data × Option PyErr) (hall : ∀ u ∈ st.1.urls, InvC3 tn u) :
    ∀ u ∈ (findUrlInHtml base tn soup st).1.urls, InvC3 tn u := by
  unfold findUrlInHtml
  generalize TAGS_AND_ATTRIBUTES = tas
  induction tas generalizing st with
  | nil => exact hall
  | cons ta tas ih =>
    rw [List.foldl_cons]
    exact ih _ (foldl_elemStep_inv base tn ta.2 (findAll ta.1 soup) st hall)

theorem urlLoopRev_inv (base : String) (tn : List Char) (rs : List Response) (d : Data)
    (hall : ∀ u ∈ d.urls, InvC3 tn u) :
    ∀ u ∈ (urlLoopRev base tn rs d).1.urls, InvC3 tn u := by
  induction rs generalizing d with
  | nil => exact hall
  | cons r rs ih =>
    unfold urlLoopRev
    dsimp only
    have h := findUrlInHtml_inv base tn r.text
      ({ d with responses := rs.reverse }, none) hall
    cases ho : (findUrlInHtml base tn r.text ({ d with responses := rs.reverse }, none)).2
      with
    | none => exact ih _ h
    | some e => exact h

/-- A response whose body holds a single `mailto:` link. -/
def respMailto : Response :=
  { url := "http://example.com", status_code := 200, headers := [],
    text := [⟨"a", [("href", "mailto:x@y.z")]⟩] }

/-- State after dispatch with the single `respMailto` response. -/
def dataMailto : Data :=
  { responses := [respMailto], urls := [], known_urls := ["http://example.com"], info := [],
    base_url := some "http://example.com", redirect := false }

/-- C3 counterexample: with base `http://example.com`, a body consisting of one
`<a href="mailto:x@y.z">` element makes link extraction insert `mailto:x@y.z`
into the frontier.  Its parsed host is empty while the target host is
`example.com`, so the frontier does not satisfy "host equals the Target's host":
the code's guard skips only URLs whose netloc is non-empty *and* different,
letting every empty-netloc URL through. -/
theorem claim_C3_counterexample :
    (urlEnter dataMailto).1.urls = ["mailto:x@y.z"] ∧
    (urlparseE "mailto:x@y.z".data []).map ParseResult.netloc = .ok [] ∧
    (urlparseE "http://example.com".data []).map ParseResult.netloc =
      .ok "example.com".data ∧
    "example.com".data ≠ [] :=
  ⟨by decide, by decide, by decide, by decide⟩

/-- C3 (corrected): link extraction preserves the frontier discipline `InvC3`
for the target netloc parsed from the base URL.  Every frontier URL it leaves
behind contains no `#` character (hence no fragment component), and each is the
slash-stripped fragment-free serialization of a parse whose netloc is empty or
equal to the target's; when that netloc is non-empty the stored URL itself
re-parses to exactly the target netloc.  Empty-netloc URLs (`mailto:` etc.) are
inserted with no host check at all, which is the needed correction to "the
URL's host equals the Target's host". -/
theorem claim_C3_amended (d : Data) (base : String) (pb : ParseResult)
    (hb : d.base_url = some base) (hpb : urlparseE base.data [] = .ok pb)
    (hall : ∀ u ∈ d.urls, InvC3 pb.netloc u) :
    ∀ u ∈ (urlEnter d).1.urls, InvC3 pb.netloc u := by
  unfold urlEnter
  rw [hb]
  dsimp only
  rw [hpb]
  dsimp only
  exact urlLoopRev_inv base pb.netloc d.responses.reverse d hall

/-- C3 witness: the amended theorem applied to the concrete `dataImg` run (base
`http://example.com`, one `<img src="/x">` body) and to the frontier URL
`http://example.com/x` that run produces: that URL satisfies the frontier
discipline for target netloc `example.com`. -/
theorem claim_C3_witness :
    InvC3 "example.com".data "http://example.com/x" :=
  claim_C3_amended dataImg "http://example.com"
    ⟨"http".data, "example.com".data, [], [], [], []⟩ rfl (by decide)
    (by intro u hu; simp [dataImg] at hu)
    "http://example.com/x" (by decide)
